import Mathlib

/-!
Verification of the plan-agent control loop (`src/agent.py`).

The development shallowly embeds the Python source:
* `Json` and the fuel-indexed parser `parseVal` / `loads` model values produced
  by `json.loads` (numeric literals are modelled as integers; the plans in the
  program's schema use no fractional numbers).
* `pyin`, `breakOn`, `pysplit` model Python's `in` operator and `str.split`
  on lists of characters.
* `selectText` / `extractPlan` embed the fenced-block extraction shared by
  `get_plan` (lines 70-79) and `refine_plan` (lines 166-175).
* `stepTry` / `runStep` / `execSteps` / `execute_plan` embed `execute_plan`
  (lines 97-133), with the shell and the filesystem supplied by an `Env`
  oracle and side effects recorded in an `ExecSt` state.
* `sessionLoop` embeds the `while True` loop of `main` (lines 199-238).
-/

namespace Agent

/-- JSON values as produced by `json.loads`.  Object fields keep their source
order; duplicate keys are resolved by `jlookup` (last occurrence wins, as in
Python). -/
inductive Json where
  | null
  | bool (b : Bool)
  | num (n : Int)
  | str (s : String)
  | arr (elems : List Json)
  | obj (fields : List (String × Json))

/-- The double-quote character. -/
def qc : Char := Char.ofNat 34

/-- The backslash character. -/
def bs : Char := Char.ofNat 92

/-- JSON whitespace characters (the set used by Python's `json` module). -/
def wsChar (c : Char) : Bool :=
  c = ' ' || c = '\t' || c = '\n' || c = '\r'

/-- Drop leading JSON whitespace. -/
def skipWs : List Char → List Char
  | [] => []
  | c :: cs => if wsChar c then skipWs cs else c :: cs

/-- Value of a hexadecimal digit, if any. -/
def hexVal (c : Char) : Option Nat :=
  if '0' ≤ c ∧ c ≤ '9' then some (c.toNat - '0'.toNat)
  else if 'a' ≤ c ∧ c ≤ 'f' then some (c.toNat - 'a'.toNat + 10)
  else if 'A' ≤ c ∧ c ≤ 'F' then some (c.toNat - 'A'.toNat + 10)
  else none

/-- Body of a JSON string literal, after the opening quote.  Returns the
decoded characters and the input after the closing quote. -/
def parseStringBody : List Char → Option (List Char × List Char)
  | [] => none
  | c :: cs =>
    if c = qc then some ([], cs)
    else if c = bs then
      match cs with
      | [] => none
      | e :: cs' =>
        if e = qc ∨ e = bs ∨ e = '/' then
          (parseStringBody cs').map (fun p => (e :: p.1, p.2))
        else if e = 'n' then (parseStringBody cs').map (fun p => ('\n' :: p.1, p.2))
        else if e = 't' then (parseStringBody cs').map (fun p => ('\t' :: p.1, p.2))
        else if e = 'r' then (parseStringBody cs').map (fun p => ('\r' :: p.1, p.2))
        else if e = 'b' then (parseStringBody cs').map (fun p => (Char.ofNat 8 :: p.1, p.2))
        else if e = 'f' then (parseStringBody cs').map (fun p => (Char.ofNat 12 :: p.1, p.2))
        else if e = 'u' then
          match cs' with
          | h1 :: h2 :: h3 :: h4 :: cs'' =>
            match hexVal h1, hexVal h2, hexVal h3, hexVal h4 with
            | some a, some b, some c3, some d =>
              (parseStringBody cs'').map
                (fun p => (Char.ofNat (((a * 16 + b) * 16 + c3) * 16 + d) :: p.1, p.2))
            | _, _, _, _ => none
          | _ => none
        else none
    else if c.toNat < 32 then none
    else (parseStringBody cs).map (fun p => (c :: p.1, p.2))

/-- Numeric value of a digit string. -/
def digitsToNat : List Char → Nat → Nat
  | [], acc => acc
  | c :: cs, acc => digitsToNat cs (acc * 10 + (c.toNat - '0'.toNat))

/-- An unsigned JSON integer: one or more digits, no redundant leading zero. -/
def parseUNum (cs : List Char) : Option (Nat × List Char) :=
  let ds := cs.takeWhile Char.isDigit
  match ds with
  | [] => none
  | d0 :: rest =>
    if d0 = '0' ∧ rest ≠ [] then none
    else some (digitsToNat (d0 :: rest) 0, cs.dropWhile Char.isDigit)

/-- A JSON integer literal (optionally negated). -/
def parseNumber : List Char → Option (Int × List Char)
  | [] => none
  | c :: cs =>
    if c = '-' then (parseUNum cs).map (fun p => (-(p.1 : Int), p.2))
    else (parseUNum (c :: cs)).map (fun p => ((p.1 : Int), p.2))

mutual

/-- Fuel-indexed recursive-descent parser for one JSON value.  Mirrors the
grammar accepted by `json.loads` (with integer numerals). -/
def parseVal : Nat → List Char → Option (Json × List Char)
  | 0, _ => none
  | f + 1, cs =>
    match cs with
    | [] => none
    | c :: cs' =>
      if c = qc then
        (parseStringBody cs').map (fun p => (Json.str (String.mk p.1), p.2))
      else if c = '[' then
        match skipWs cs' with
        | [] => none
        | d :: r =>
          if d = ']' then some (Json.arr [], r)
          else (parseElems f (d :: r)).map (fun p => (Json.arr p.1, p.2))
      else if c = '{' then
        match skipWs cs' with
        | [] => none
        | d :: r =>
          if d = '}' then some (Json.obj [], r)
          else (parseMembers f (d :: r)).map (fun p => (Json.obj p.1, p.2))
      else if c = 't' then
        if cs'.take 3 = ['r', 'u', 'e'] then some (Json.bool true, cs'.drop 3)
        else none
      else if c = 'f' then
        if cs'.take 4 = ['a', 'l', 's', 'e'] then some (Json.bool false, cs'.drop 4)
        else none
      else if c = 'n' then
        if cs'.take 3 = ['u', 'l', 'l'] then some (Json.null, cs'.drop 3)
        else none
      else
        (parseNumber (c :: cs')).map (fun p => (Json.num p.1, p.2))

/-- Comma-separated array elements up to the closing bracket. -/
def parseElems : Nat → List Char → Option (List Json × List Char)
  | 0, _ => none
  | f + 1, cs =>
    match parseVal f cs with
    | none => none
    | some (v, r) =>
      match skipWs r with
      | [] => none
      | d :: r' =>
        if d = ',' then
          match parseElems f (skipWs r') with
          | none => none
          | some (vs, r'') => some (v :: vs, r'')
        else if d = ']' then some ([v], r')
        else none

/-- Comma-separated object members up to the closing brace. -/
def parseMembers : Nat → List Char → Option (List (String × Json) × List Char)
  | 0, _ => none
  | f + 1, cs =>
    match cs with
    | [] => none
    | c :: cs' =>
      if c = qc then
        match parseStringBody cs' with
        | none => none
        | some (k, r1) =>
          match skipWs r1 with
          | [] => none
          | d :: r2 =>
            if d = ':' then
              match parseVal f (skipWs r2) with
              | none => none
              | some (v, r3) =>
                match skipWs r3 with
                | [] => none
                | e :: r4 =>
                  if e = ',' then
                    match parseMembers f (skipWs r4) with
                    | none => none
                    | some (ms, r5) => some ((String.mk k, v) :: ms, r5)
                  else if e = '}' then some ([(String.mk k, v)], r4)
                  else none
            else none
      else none

end

/-- Embedding of `json.loads`: parse one JSON document, allowing surrounding
whitespace and nothing else. -/
def loads (s : List Char) : Option Json :=
  let cs := skipWs s
  match parseVal (2 * cs.length + 2) cs with
  | some (v, r) => if skipWs r = [] then some v else none
  | none => none

/-! ### Python string operations used by the extractor -/

/-- Python's `sub in s` for strings: contiguous-substring containment. -/
def pyin (needle : List Char) : List Char → Bool
  | [] => needle.isEmpty
  | c :: cs => needle.isPrefixOf (c :: cs) || pyin needle cs

/-- Split at the first occurrence of `sep`: `some (before, after)`, or `none`
when `sep` does not occur.  (`after` starts past the occurrence.) -/
def breakOn (sep : List Char) : List Char → Option (List Char × List Char)
  | [] => none
  | c :: cs =>
    if sep.isPrefixOf (c :: cs) then some ([], (c :: cs).drop sep.length)
    else
      match breakOn sep cs with
      | none => none
      | some (b, a) => some (c :: b, a)

/-- Worker for `pysplit`, with fuel bounding the number of separators. -/
def pysplitGo (sep : List Char) : Nat → List Char → List (List Char)
  | 0, s => [s]
  | f + 1, s =>
    match breakOn sep s with
    | none => [s]
    | some (b, a) => b :: pysplitGo sep f a

/-- Python's `s.split(sep)` for a non-empty separator. -/
def pysplit (sep s : List Char) : List (List Char) :=
  pysplitGo sep (s.length + 1) s

/-- List indexing as used on the results of `split` (the source only indexes
positions it has guarded by an `in` check, so the default is never hit). -/
def idx (l : List (List Char)) (i : Nat) : List Char :=
  l.getD i []

/-- The characters of the json-tagged fence marker. -/
def fenceJson : List Char := "```json".toList

/-- The characters of the generic fence marker. -/
def fence : List Char := "```".toList

/-- Fenced-block selection of `get_plan` / `refine_plan` (lines 73-76 and
169-172 of `src/agent.py`):

    if "```json" in response_text:
        response_text = response_text.split("```json")[1].split("```")[0]
    elif "```" in response_text:
        response_text = response_text.split("```")[1].split("```")[0]
-/
def selectText (t : List Char) : List Char :=
  if pyin fenceJson t then idx (pysplit fence (idx (pysplit fenceJson t) 1)) 0
  else if pyin fence t then idx (pysplit fence (idx (pysplit fence t) 1)) 0
  else t

/-- The extraction shared by `get_plan` and `refine_plan`: select the fenced
content, then `json.loads` it; `none` models the `None` returned on
`json.JSONDecodeError`. -/
def extractPlan (t : List Char) : Option Json :=
  loads (selectText t)

/-! ### Whitespace-robustness of `loads`

The fenced selection keeps the newlines around the document, so the proofs
about the extractor need that `json.loads` is insensitive to surrounding
whitespace.  The lemmas below show that a successful parse survives appending
a non-digit-leading suffix. -/

/-- Appending does not disturb skipped whitespace when something non-blank
remains. -/
theorem skipWs_append_of_ne (x y : List Char) (h : skipWs x ≠ []) :
    skipWs (x ++ y) = skipWs x ++ y := by
  induction x with
  | nil => simp [skipWs] at h
  | cons c cs ih =>
    by_cases hc : wsChar c
    · simp only [skipWs, hc, if_true] at h ⊢
      exact ih h
    · simp [skipWs, hc]

/-- Appending past all-whitespace input skips into the suffix. -/
theorem skipWs_append_of_nil (x y : List Char) (h : skipWs x = []) :
    skipWs (x ++ y) = skipWs y := by
  induction x with
  | nil => rfl
  | cons c cs ih =>
    by_cases hc : wsChar c
    · simp only [skipWs, hc, if_true] at h ⊢
      exact ih h
    · simp [skipWs, hc] at h

/-- A suffix whose head fails `p` does not disturb `takeWhile`/`dropWhile`. -/
theorem takeWhile_dropWhile_append (p : Char → Bool) (cs ext : List Char)
    (hext : ∀ c, ext.head? = some c → p c = false) :
    (cs ++ ext).takeWhile p = cs.takeWhile p ∧
    (cs ++ ext).dropWhile p = cs.dropWhile p ++ ext := by
  induction cs with
  | nil =>
    cases ext with
    | nil => simp
    | cons e ext' =>
      have := hext e rfl
      simp [List.takeWhile, List.dropWhile, this]
  | cons c cs ih =>
    by_cases hc : p c
    · simp only [List.cons_append, List.takeWhile_cons, List.dropWhile_cons, hc,
        if_true]
      refine ⟨?_, ?_⟩
      · rw [ih.1]
      · rw [ih.2]
    · simp [List.takeWhile_cons, List.dropWhile_cons, hc]

/-- Extensions that cannot be mistaken for more of a numeral. -/
def extOk (ext : List Char) : Prop :=
  ∀ c, ext.head? = some c → c.isDigit = false

/-- A parsed unsigned numeral is unaffected by an `extOk` suffix. -/
theorem parseUNum_ext (cs ext : List Char) (n : Nat) (r : List Char)
    (hext : extOk ext) (h : parseUNum cs = some (n, r)) :
    parseUNum (cs ++ ext) = some (n, r ++ ext) := by
  obtain ⟨ht, hd⟩ := takeWhile_dropWhile_append Char.isDigit cs ext hext
  unfold parseUNum at h ⊢
  rw [ht, hd]
  cases hds : cs.takeWhile Char.isDigit with
  | nil => rw [hds] at h; simp at h
  | cons d0 ds =>
    rw [hds] at h
    simp only at h ⊢
    split at h
    · simp at h
    · rename_i hbad
      rw [if_neg hbad]
      injection h with h1
      injection h1 with hn hr
      rw [hn, hr]

/-- A parsed integer literal is unaffected by an `extOk` suffix. -/
theorem parseNumber_ext (cs ext : List Char) (n : Int) (r : List Char)
    (hext : extOk ext) (h : parseNumber cs = some (n, r)) :
    parseNumber (cs ++ ext) = some (n, r ++ ext) := by
  cases cs with
  | nil => simp [parseNumber] at h
  | cons c cs' =>
    rw [List.cons_append]
    simp only [parseNumber] at h ⊢
    by_cases hc : c = '-'
    · rw [if_pos hc] at h ⊢
      cases hu : parseUNum cs' with
      | none => rw [hu] at h; simp at h
      | some p =>
        obtain ⟨m, r'⟩ := p
        rw [hu] at h
        simp only [Option.map_some', Option.some.injEq, Prod.mk.injEq] at h
        obtain ⟨hn, hr⟩ := h
        rw [parseUNum_ext cs' ext m r' hext hu]
        simp only [Option.map_some', Option.some.injEq, Prod.mk.injEq]
        exact ⟨hn, by rw [← hr]⟩
    · rw [if_neg hc] at h ⊢
      cases hu : parseUNum (c :: cs') with
      | none => rw [hu] at h; simp at h
      | some p =>
        obtain ⟨m, r'⟩ := p
        rw [hu] at h
        simp only [Option.map_some', Option.some.injEq, Prod.mk.injEq] at h
        obtain ⟨hn, hr⟩ := h
        rw [← List.cons_append, parseUNum_ext (c :: cs') ext m r' hext hu]
        simp only [Option.map_some', Option.some.injEq, Prod.mk.injEq]
        exact ⟨hn, by rw [← hr]⟩

/-- A parsed string body is unaffected by any suffix (the closing quote was
already found). -/
theorem parseStringBody_ext (cs : List Char) :
    ∀ s r ext, parseStringBody cs = some (s, r) →
      parseStringBody (cs ++ ext) = some (s, r ++ ext) := by
  have hbq : ¬bs = qc := by simp [qc, bs]
  induction cs using parseStringBody.induct with
  | case1 =>
    intro s r ext h
    unfold parseStringBody at h
    exact absurd h (by simp)
  | case2 cs =>
    intro s r ext h
    rw [List.cons_append]
    unfold parseStringBody at h ⊢
    rw [if_pos rfl] at h ⊢
    simp only [Option.some.injEq, Prod.mk.injEq] at h
    obtain ⟨hs, hr⟩ := h
    subst hs
    subst hr
    rfl
  | case3 hne =>
    intro s r ext h
    unfold parseStringBody at h
    simp only [if_neg hbq, if_pos rfl] at h
    exact absurd h (by simp)
  | case4 c cs hc hne ih =>
    intro s r ext h
    unfold parseStringBody at h ⊢
    simp only [hc, if_true, if_neg hbq, if_pos rfl, List.cons_append] at h ⊢
    cases hps : parseStringBody cs with
    | none => rw [hps] at h; simp at h
    | some p =>
      obtain ⟨s₁, r₁⟩ := p
      rw [hps] at h
      rw [ih s₁ r₁ ext hps]
      simpa using h
  | case5 cs hne hor ih =>
    intro s r ext h
    unfold parseStringBody at h ⊢
    simp only [if_neg hbq, if_pos rfl, if_neg hor, List.cons_append] at h ⊢
    cases hps : parseStringBody cs with
    | none => rw [hps] at h; simp at h
    | some p =>
      obtain ⟨s₁, r₁⟩ := p
      rw [hps] at h
      rw [ih s₁ r₁ ext hps]
      simpa using h
  | case6 cs hne hor h1 ih =>
    intro s r ext h
    unfold parseStringBody at h ⊢
    simp only [if_neg hbq, if_pos rfl, if_neg hor, if_neg h1, List.cons_append] at h ⊢
    cases hps : parseStringBody cs with
    | none => rw [hps] at h; simp at h
    | some p =>
      obtain ⟨s₁, r₁⟩ := p
      rw [hps] at h
      rw [ih s₁ r₁ ext hps]
      simpa using h
  | case7 cs hne hor h1 h2 ih =>
    intro s r ext h
    unfold parseStringBody at h ⊢
    simp only [if_neg hbq, if_pos rfl, if_neg hor, if_neg h1, if_neg h2, List.cons_append] at h ⊢
    cases hps : parseStringBody cs with
    | none => rw [hps] at h; simp at h
    | some p =>
      obtain ⟨s₁, r₁⟩ := p
      rw [hps] at h
      rw [ih s₁ r₁ ext hps]
      simpa using h
  | case8 cs hne hor h1 h2 h3 ih =>
    intro s r ext h
    unfold parseStringBody at h ⊢
    simp only [if_neg hbq, if_pos rfl, if_neg hor, if_neg h1, if_neg h2,
      if_neg h3, List.cons_append] at h ⊢
    cases hps : parseStringBody cs with
    | none => rw [hps] at h; simp at h
    | some p =>
      obtain ⟨s₁, r₁⟩ := p
      rw [hps] at h
      rw [ih s₁ r₁ ext hps]
      simpa using h
  | case9 cs hne hor h1 h2 h3 h4 ih =>
    intro s r ext h
    unfold parseStringBody at h ⊢
    simp only [if_neg hbq, if_pos rfl, if_neg hor, if_neg h1, if_neg h2,
      if_neg h3, if_neg h4, List.cons_append] at h ⊢
    cases hps : parseStringBody cs with
    | none => rw [hps] at h; simp at h
    | some p =>
      obtain ⟨s₁, r₁⟩ := p
      rw [hps] at h
      rw [ih s₁ r₁ ext hps]
      simpa using h
  | case10 h1 h2 h3 h4 cs2 a b c3 d e4 e3 e2 e1 hne hor g1 g2 g3 g4 g5 ih =>
    intro s r ext h
    unfold parseStringBody at h ⊢
    simp only [if_neg hbq, if_pos rfl, if_neg hor, if_neg g1, if_neg g2,
      if_neg g3, if_neg g4, if_neg g5, e1, e2, e3, e4, List.cons_append] at h ⊢
    cases hps : parseStringBody cs2 with
    | none => rw [hps] at h; simp at h
    | some p =>
      obtain ⟨s₁, r₁⟩ := p
      rw [hps] at h
      rw [ih s₁ r₁ ext hps]
      simpa using h
  | case11 h1 h2 h3 h4 cs2 hfail hne hor g1 g2 g3 g4 g5 =>
    intro s r ext h
    unfold parseStringBody at h
    rcases e1 : hexVal h1 with _ | a <;>
      rcases e2 : hexVal h2 with _ | b <;>
        rcases e3 : hexVal h3 with _ | c3 <;>
          rcases e4 : hexVal h4 with _ | d
    all_goals
      first
        | exact (hfail _ _ _ _ e1 e2 e3 e4).elim
        | (simp only [if_neg hbq, if_pos rfl, if_neg hor, if_neg g1, if_neg g2,
             if_neg g3, if_neg g4, if_neg g5, e1, e2, e3, e4] at h
           exact absurd h (by simp))
  | case12 cs hshort hne hor g1 g2 g3 g4 g5 =>
    intro s r ext h
    unfold parseStringBody at h
    simp only [if_neg hbq, if_pos rfl, if_neg hor, if_neg g1, if_neg g2,
      if_neg g3, if_neg g4, if_neg g5] at h
    cases cs with
    | nil => simp at h
    | cons a t =>
      cases t with
      | nil => simp at h
      | cons b t2 =>
        cases t2 with
        | nil => simp at h
        | cons c3 t3 =>
          cases t3 with
          | nil => simp at h
          | cons d t4 => exact (hshort a b c3 d t4 rfl).elim
  | case13 c cs hor h1 h2 h3 h4 h5 h6 hne =>
    intro s r ext h
    unfold parseStringBody at h
    simp only [if_neg hbq, if_pos rfl, if_neg hor, if_neg h1, if_neg h2,
      if_neg h3, if_neg h4, if_neg h5, if_neg h6] at h
    exact absurd h (by simp)
  | case14 c cs hq hb hlt =>
    intro s r ext h
    unfold parseStringBody at h
    simp only [if_neg hq, if_neg hb, if_pos hlt] at h
    exact absurd h (by simp)
  | case15 c cs hq hb hlt ih =>
    intro s r ext h
    unfold parseStringBody at h ⊢
    simp only [if_neg hq, if_neg hb, if_neg hlt, List.cons_append] at h ⊢
    cases hps : parseStringBody cs with
    | none => rw [hps] at h; simp at h
    | some p =>
      obtain ⟨s₁, r₁⟩ := p
      rw [hps] at h
      rw [ih s₁ r₁ ext hps]
      simpa using h


/-- Fuel monotonicity: a successful parse still succeeds, unchanged, with one
more unit of fuel (stated jointly for the three mutual parsers). -/
theorem parse_mono : ∀ f : Nat,
    (∀ cs r, parseVal f cs = some r → parseVal (f + 1) cs = some r) ∧
    (∀ cs r, parseElems f cs = some r → parseElems (f + 1) cs = some r) ∧
    (∀ cs r, parseMembers f cs = some r → parseMembers (f + 1) cs = some r) := by
  intro f
  induction f with
  | zero =>
    refine ⟨?_, ?_, ?_⟩ <;> intro cs r h <;>
      simp [parseVal, parseElems, parseMembers] at h
  | succ f ih =>
    obtain ⟨ihV, ihE, ihM⟩ := ih
    refine ⟨?_, ?_, ?_⟩
    · intro cs r h
      cases cs with
      | nil => unfold parseVal at h; exact absurd h (by simp)
      | cons c cs' =>
        unfold parseVal at h ⊢
        by_cases h1 : c = qc
        · simp only [if_pos h1] at h ⊢; exact h
        · by_cases h2 : c = '['
          · simp only [if_neg h1, if_pos h2] at h ⊢
            cases hsw : skipWs cs' with
            | nil => rw [hsw] at h; simp at h
            | cons d rr =>
              rw [hsw] at h
              by_cases h3 : d = ']'
              · simp only [if_pos h3] at h ⊢; exact h
              · simp only [if_neg h3] at h ⊢
                cases he : parseElems f (d :: rr) with
                | none => rw [he] at h; simp at h
                | some p =>
                  rw [he] at h
                  rw [ihE (d :: rr) p he]
                  exact h
          · by_cases h3 : c = '{'
            · simp only [if_neg h1, if_neg h2, if_pos h3] at h ⊢
              cases hsw : skipWs cs' with
              | nil => rw [hsw] at h; simp at h
              | cons d rr =>
                rw [hsw] at h
                by_cases h4 : d = '}'
                · simp only [if_pos h4] at h ⊢; exact h
                · simp only [if_neg h4] at h ⊢
                  cases he : parseMembers f (d :: rr) with
                  | none => rw [he] at h; simp at h
                  | some p =>
                    rw [he] at h
                    rw [ihM (d :: rr) p he]
                    exact h
            · simp only [if_neg h1, if_neg h2, if_neg h3] at h ⊢
              exact h
    · intro cs r h
      unfold parseElems at h ⊢
      cases hv : parseVal f cs with
      | none => rw [hv] at h; simp at h
      | some p =>
        obtain ⟨v, rr⟩ := p
        rw [hv] at h
        rw [ihV cs (v, rr) hv]
        dsimp only at h ⊢
        cases hsw : skipWs rr with
        | nil => rw [hsw] at h; simp at h
        | cons d r' =>
          rw [hsw] at h
          by_cases hc : d = ','
          · simp only [if_pos hc] at h ⊢
            cases he : parseElems f (skipWs r') with
            | none => rw [he] at h; simp at h
            | some q =>
              rw [he] at h
              rw [ihE (skipWs r') q he]
              exact h
          · by_cases hb : d = ']'
            · simp only [if_neg hc, if_pos hb] at h ⊢; exact h
            · simp only [if_neg hc, if_neg hb] at h
              exact absurd h (by simp)
    · intro cs r h
      cases cs with
      | nil => unfold parseMembers at h; exact absurd h (by simp)
      | cons c cs' =>
        unfold parseMembers at h ⊢
        by_cases h1 : c = qc
        · simp only [if_pos h1] at h ⊢
          cases hk : parseStringBody cs' with
          | none => rw [hk] at h; simp at h
          | some p =>
            obtain ⟨k, r1⟩ := p
            rw [hk] at h
            dsimp only at h ⊢
            cases hsw : skipWs r1 with
            | nil => rw [hsw] at h; simp at h
            | cons d r2 =>
              rw [hsw] at h
              by_cases h2 : d = ':'
              · simp only [if_pos h2] at h ⊢
                cases hv : parseVal f (skipWs r2) with
                | none => rw [hv] at h; simp at h
                | some q =>
                  obtain ⟨v, r3⟩ := q
                  rw [hv] at h
                  rw [ihV (skipWs r2) (v, r3) hv]
                  dsimp only at h ⊢
                  cases hsw2 : skipWs r3 with
                  | nil => rw [hsw2] at h; simp at h
                  | cons e r4 =>
                    rw [hsw2] at h
                    by_cases h3 : e = ','
                    · simp only [if_pos h3] at h ⊢
                      cases hm : parseMembers f (skipWs r4) with
                      | none => rw [hm] at h; simp at h
                      | some q2 =>
                        rw [hm] at h
                        rw [ihM (skipWs r4) q2 hm]
                        exact h
                    · by_cases h4 : e = '}'
                      · simp only [if_neg h3, if_pos h4] at h ⊢; exact h
                      · simp only [if_neg h3, if_neg h4] at h
                        exact absurd h (by simp)
              · simp only [if_neg h2] at h
                exact absurd h (by simp)
        · simp only [if_neg h1] at h
          exact absurd h (by simp)

/-- Fuel monotonicity for any larger fuel. -/
theorem parseVal_mono_le (f f' : Nat) (hle : f ≤ f') (cs : List Char)
    (r : Json × List Char) (h : parseVal f cs = some r) :
    parseVal f' cs = some r := by
  induction hle with
  | refl => exact h
  | step _ ih => exact (parse_mono _).1 _ _ ih

/-- No parser accepts empty input. -/
theorem parseVal_nil (f : Nat) : parseVal f [] = none := by
  cases f <;> rfl

/-- Array-element parsing rejects empty input. -/
theorem parseElems_nil (f : Nat) : parseElems f [] = none := by
  cases f with
  | zero => rfl
  | succ n => simp [parseElems, parseVal_nil]

/-- Transport of a successful pair-result along an appended suffix. -/
theorem some_pair_ext {α : Type} {A v : α} {B r : List Char} (ext2 : List Char)
    (h : (some (A, B) : Option (α × List Char)) = some (v, r)) :
    (some (A, B ++ ext2) : Option (α × List Char)) = some (v, r ++ ext2) := by
  injection h with h1
  injection h1 with hv hr
  rw [hv, hr]

/-- Suffix extension: a successful parse also succeeds on the input with an
`extOk` suffix appended, consuming exactly the same characters (stated
jointly for the three mutual parsers). -/
theorem parse_ext (ext : List Char) (hext : extOk ext) : ∀ f : Nat,
    (∀ cs v r, parseVal f cs = some (v, r) →
      parseVal f (cs ++ ext) = some (v, r ++ ext)) ∧
    (∀ cs vs r, parseElems f cs = some (vs, r) →
      parseElems f (cs ++ ext) = some (vs, r ++ ext)) ∧
    (∀ cs ms r, parseMembers f cs = some (ms, r) →
      parseMembers f (cs ++ ext) = some (ms, r ++ ext)) := by
  intro f
  induction f with
  | zero =>
    refine ⟨?_, ?_, ?_⟩ <;> intro cs a b h <;>
      simp [parseVal, parseElems, parseMembers] at h
  | succ f ih =>
    obtain ⟨ihV, ihE, ihM⟩ := ih
    refine ⟨?_, ?_, ?_⟩
    · intro cs v r h
      cases cs with
      | nil => rw [parseVal_nil] at h; exact absurd h (by simp)
      | cons c cs' =>
        rw [List.cons_append]
        unfold parseVal at h ⊢
        by_cases h1 : c = qc
        · simp only [if_pos h1] at h ⊢
          cases hp : parseStringBody cs' with
          | none => rw [hp] at h; simp at h
          | some p =>
            obtain ⟨sb, rb⟩ := p
            rw [hp] at h
            rw [parseStringBody_ext cs' sb rb ext hp]
            simp only [Option.map_some'] at h ⊢
            exact some_pair_ext ext h
        · by_cases h2 : c = '['
          · simp only [if_neg h1, if_pos h2] at h ⊢
            cases hsw : skipWs cs' with
            | nil => rw [hsw] at h; simp at h
            | cons d rr =>
              rw [hsw] at h
              rw [skipWs_append_of_ne cs' ext (by rw [hsw]; simp), hsw,
                List.cons_append]
              by_cases h3 : d = ']'
              · simp only [if_pos h3] at h ⊢
                exact some_pair_ext ext h
              · simp only [if_neg h3] at h ⊢
                cases he : parseElems f (d :: rr) with
                | none => rw [he] at h; simp at h
                | some p =>
                  obtain ⟨vs, rq⟩ := p
                  rw [he] at h
                  have h5 := ihE (d :: rr) vs rq he
                  rw [List.cons_append] at h5
                  rw [h5]
                  simp only [Option.map_some'] at h ⊢
                  exact some_pair_ext ext h
          · by_cases h3 : c = '{'
            · simp only [if_neg h1, if_neg h2, if_pos h3] at h ⊢
              cases hsw : skipWs cs' with
              | nil => rw [hsw] at h; simp at h
              | cons d rr =>
                rw [hsw] at h
                rw [skipWs_append_of_ne cs' ext (by rw [hsw]; simp), hsw,
                  List.cons_append]
                by_cases h4 : d = '}'
                · simp only [if_pos h4] at h ⊢
                  exact some_pair_ext ext h
                · simp only [if_neg h4] at h ⊢
                  cases hm : parseMembers f (d :: rr) with
                  | none => rw [hm] at h; simp at h
                  | some p =>
                    obtain ⟨ms, rq⟩ := p
                    rw [hm] at h
                    have h5 := ihM (d :: rr) ms rq hm
                    rw [List.cons_append] at h5
                    rw [h5]
                    simp only [Option.map_some'] at h ⊢
                    exact some_pair_ext ext h
            · by_cases h4 : c = 't'
              · simp only [if_neg h1, if_neg h2, if_neg h3, if_pos h4] at h ⊢
                by_cases ht : cs'.take 3 = ['r', 'u', 'e']
                · rw [if_pos ht] at h
                  have hlen : 3 ≤ cs'.length := by
                    have h6 := congrArg List.length ht
                    simp [List.length_take] at h6
                    omega
                  rw [if_pos (show (cs' ++ ext).take 3 = ['r', 'u', 'e'] by
                    rw [List.take_append_of_le_length hlen, ht]),
                    List.drop_append_of_le_length hlen]
                  exact some_pair_ext ext h
                · rw [if_neg ht] at h; simp at h
              · by_cases h5 : c = 'f'
                · simp only [if_neg h1, if_neg h2, if_neg h3, if_neg h4,
                    if_pos h5] at h ⊢
                  by_cases ht : cs'.take 4 = ['a', 'l', 's', 'e']
                  · rw [if_pos ht] at h
                    have hlen : 4 ≤ cs'.length := by
                      have h6 := congrArg List.length ht
                      simp [List.length_take] at h6
                      omega
                    rw [if_pos (show (cs' ++ ext).take 4 = ['a', 'l', 's', 'e'] by
                      rw [List.take_append_of_le_length hlen, ht]),
                      List.drop_append_of_le_length hlen]
                    exact some_pair_ext ext h
                  · rw [if_neg ht] at h; simp at h
                · by_cases h6 : c = 'n'
                  · simp only [if_neg h1, if_neg h2, if_neg h3, if_neg h4,
                      if_neg h5, if_pos h6] at h ⊢
                    by_cases ht : cs'.take 3 = ['u', 'l', 'l']
                    · rw [if_pos ht] at h
                      have hlen : 3 ≤ cs'.length := by
                        have h7 := congrArg List.length ht
                        simp [List.length_take] at h7
                        omega
                      rw [if_pos (show (cs' ++ ext).take 3 = ['u', 'l', 'l'] by
                        rw [List.take_append_of_le_length hlen, ht]),
                        List.drop_append_of_le_length hlen]
                      exact some_pair_ext ext h
                    · rw [if_neg ht] at h; simp at h
                  · simp only [if_neg h1, if_neg h2, if_neg h3, if_neg h4,
                      if_neg h5, if_neg h6] at h ⊢
                    cases hn : parseNumber (c :: cs') with
                    | none => rw [hn] at h; simp at h
                    | some p =>
                      obtain ⟨n, rn⟩ := p
                      rw [hn] at h
                      have h7 := parseNumber_ext (c :: cs') ext n rn hext hn
                      rw [List.cons_append] at h7
                      rw [h7]
                      simp only [Option.map_some'] at h ⊢
                      exact some_pair_ext ext h
    · intro cs vs r h
      unfold parseElems at h ⊢
      cases hv : parseVal f cs with
      | none => rw [hv] at h; simp at h
      | some p =>
        obtain ⟨v1, rr⟩ := p
        rw [hv] at h
        rw [ihV cs v1 rr hv]
        dsimp only at h ⊢
        cases hsw : skipWs rr with
        | nil => rw [hsw] at h; simp at h
        | cons d r' =>
          rw [hsw] at h
          rw [skipWs_append_of_ne rr ext (by rw [hsw]; simp), hsw,
            List.cons_append]
          by_cases hc : d = ','
          · simp only [if_pos hc] at h ⊢
            cases he : parseElems f (skipWs r') with
            | none => rw [he] at h; simp at h
            | some q =>
              obtain ⟨vs2, r''⟩ := q
              rw [he] at h
              have hne : skipWs r' ≠ [] := by
                intro hcon
                rw [hcon, parseElems_nil] at he
                exact absurd he (by simp)
              rw [skipWs_append_of_ne r' ext hne]
              rw [ihE (skipWs r') vs2 r'' he]
              dsimp only at h ⊢
              exact some_pair_ext ext h
          · by_cases hb : d = ']'
            · simp only [if_neg hc, if_pos hb] at h ⊢
              exact some_pair_ext ext h
            · simp only [if_neg hc, if_neg hb] at h
              exact absurd h (by simp)
    · intro cs ms r h
      cases cs with
      | nil =>
        unfold parseMembers at h
        exact absurd h (by simp)
      | cons c cs' =>
        rw [List.cons_append]
        unfold parseMembers at h ⊢
        by_cases h1 : c = qc
        · simp only [if_pos h1] at h ⊢
          cases hk : parseStringBody cs' with
          | none => rw [hk] at h; simp at h
          | some p =>
            obtain ⟨k, r1⟩ := p
            rw [hk] at h
            rw [parseStringBody_ext cs' k r1 ext hk]
            dsimp only at h ⊢
            cases hsw : skipWs r1 with
            | nil => rw [hsw] at h; simp at h
            | cons d r2 =>
              rw [hsw] at h
              rw [skipWs_append_of_ne r1 ext (by rw [hsw]; simp), hsw,
                List.cons_append]
              by_cases h2 : d = ':'
              · simp only [if_pos h2] at h ⊢
                cases hv : parseVal f (skipWs r2) with
                | none => rw [hv] at h; simp at h
                | some q =>
                  obtain ⟨v, r3⟩ := q
                  rw [hv] at h
                  have hne2 : skipWs r2 ≠ [] := by
                    intro hcon
                    rw [hcon, parseVal_nil] at hv
                    exact absurd hv (by simp)
                  rw [skipWs_append_of_ne r2 ext hne2]
                  rw [ihV (skipWs r2) v r3 hv]
                  dsimp only at h ⊢
                  cases hsw2 : skipWs r3 with
                  | nil => rw [hsw2] at h; simp at h
                  | cons e r4 =>
                    rw [hsw2] at h
                    rw [skipWs_append_of_ne r3 ext (by rw [hsw2]; simp), hsw2,
                      List.cons_append]
                    by_cases h3 : e = ','
                    · simp only [if_pos h3] at h ⊢
                      cases hm : parseMembers f (skipWs r4) with
                      | none => rw [hm] at h; simp at h
                      | some q2 =>
                        obtain ⟨ms2, r5⟩ := q2
                        rw [hm] at h
                        have hne3 : skipWs r4 ≠ [] := by
                          intro hcon
                          rw [hcon] at hm
                          have : parseMembers f ([] : List Char) = none := by
                            cases f <;> rfl
                          rw [this] at hm
                          exact absurd hm (by simp)
                        rw [skipWs_append_of_ne r4 ext hne3]
                        rw [ihM (skipWs r4) ms2 r5 hm]
                        dsimp only at h ⊢
                        exact some_pair_ext ext h
                    · by_cases h4 : e = '}'
                      · simp only [if_neg h3, if_pos h4] at h ⊢
                        exact some_pair_ext ext h
                      · simp only [if_neg h3, if_neg h4] at h
                        exact absurd h (by simp)
              · simp only [if_neg h2] at h
                exact absurd h (by simp)
        · simp only [if_neg h1] at h
          exact absurd h (by simp)

/-- The newline suffix cannot extend a numeral. -/
theorem extOk_newline : extOk ['\n'] := by
  intro c hc
  simp only [List.head?] at hc
  injection hc with hc
  rw [← hc]
  rfl

/-- `json.loads` is insensitive to a surrounding newline pair: exactly the
decoration the fenced-block selection leaves around the document. -/
theorem loads_newline_wrap (d : List Char) (v : Json) (h : loads d = some v) :
    loads ('\n' :: (d ++ ['\n'])) = some v := by
  unfold loads at h
  dsimp only at h
  cases hp : parseVal (2 * (skipWs d).length + 2) (skipWs d) with
  | none => rw [hp] at h; simp at h
  | some p =>
    obtain ⟨w, rr⟩ := p
    rw [hp] at h
    dsimp only at h
    by_cases hr : skipWs rr = []
    · rw [if_pos hr] at h
      injection h with hv
      subst hv
      have hdne : skipWs d ≠ [] := by
        intro hcon
        rw [hcon, parseVal_nil] at hp
        exact absurd hp (by simp)
      unfold loads
      dsimp only
      rw [show skipWs ('\n' :: (d ++ ['\n'])) = skipWs d ++ ['\n'] by
        rw [show skipWs ('\n' :: (d ++ ['\n'])) = skipWs (d ++ ['\n']) from by
          simp [skipWs, wsChar]]
        exact skipWs_append_of_ne d ['\n'] hdne]
      rw [show (skipWs d ++ ['\n']).length = (skipWs d).length + 1 by simp]
      have hmono := parseVal_mono_le (2 * (skipWs d).length + 2)
        (2 * ((skipWs d).length + 1) + 2) (by omega) _ _ hp
      have hpx := (parse_ext ['\n'] extOk_newline
        (2 * ((skipWs d).length + 1) + 2)).1 (skipWs d) w rr hmono
      rw [hpx]
      dsimp only
      rw [if_pos (by rw [skipWs_append_of_nil rr ['\n'] hr]; rfl)]
    · rw [if_neg hr] at h
      exact absurd h (by simp)

/-! ### First-occurrence analysis of the fence markers -/

/-- The backtick character. -/
def bt : Char := Char.ofNat 96

/-- The generic fence marker, in constructor form. -/
theorem fence_chars : fence = bt :: bt :: bt :: [] := rfl

/-- The json-tagged fence marker, in constructor form. -/
theorem fenceJson_chars :
    fenceJson = bt :: bt :: bt :: 'j' :: 's' :: 'o' :: 'n' :: [] := rfl

/-- A list is a prefix of itself extended by anything. -/
theorem isPrefixOf_append_self (p y : List Char) :
    p.isPrefixOf (p ++ y) = true := by
  induction p with
  | nil => simp [List.isPrefixOf]
  | cons c cs ih => simp [List.isPrefixOf, ih]

/-- `breakOn` at an occurrence placed at the very start. -/
theorem breakOn_at_start (hd : Char) (s' y : List Char) :
    breakOn (hd :: s') ((hd :: s') ++ y) = some ([], y) := by
  show breakOn (hd :: s') (hd :: (s' ++ y)) = some ([], y)
  simp only [breakOn]
  rw [show hd :: (s' ++ y) = (hd :: s') ++ y from rfl]
  rw [isPrefixOf_append_self]
  simp [List.drop_left]

/-- `breakOn` steps over a position with no match. -/
theorem breakOn_cons_no_match (sep : List Char) (c : Char) (cs : List Char)
    (h : sep.isPrefixOf (c :: cs) = false) :
    breakOn sep (c :: cs) =
      (breakOn sep cs).map (fun p => (c :: p.1, p.2)) := by
  simp only [breakOn]
  rw [h]
  simp only [Bool.false_eq_true, if_false]
  cases breakOn sep cs with
  | none => rfl
  | some p => cases p; rfl

/-- `breakOn` skips a whole block in which no occurrence of `sep` starts. -/
theorem breakOn_append_no_early (sep x y : List Char)
    (h : ∀ i, i < x.length → sep.isPrefixOf (x.drop i ++ y) = false) :
    breakOn sep (x ++ y) =
      (breakOn sep y).map (fun p => (x ++ p.1, p.2)) := by
  induction x with
  | nil =>
    rw [List.nil_append]
    cases hb : breakOn sep y with
    | none => rfl
    | some p => cases p; rfl
  | cons c x' ih =>
    rw [List.cons_append,
      breakOn_cons_no_match sep c (x' ++ y) (h 0 (by simp))]
    rw [ih (fun i hi => h (i + 1) (by simpa using hi))]
    cases breakOn sep y with
    | none => rfl
    | some p => cases p; rfl

/-- `in` agrees with the success of `breakOn` (non-empty separator). -/
theorem pyin_eq_isSome (hd : Char) (s' t : List Char) :
    pyin (hd :: s') t = (breakOn (hd :: s') t).isSome := by
  induction t with
  | nil => rfl
  | cons c cs ih =>
    simp only [pyin, breakOn]
    by_cases hp : (hd :: s').isPrefixOf (c :: cs) = true
    · simp [hp]
    · rw [Bool.not_eq_true] at hp
      rw [hp]
      simp only [Bool.false_or, Bool.false_eq_true, if_false, ih]
      cases breakOn (hd :: s') cs with
      | none => rfl
      | some p => cases p; rfl

/-- A separator starting with a character absent from `x` never occurs
inside `x`, wherever `x` is placed. -/
theorem isPrefixOf_false_of_clean (hd : Char) (s' x y : List Char)
    (hx : ∀ c ∈ x, c ≠ hd) (i : Nat) (hi : i < x.length) :
    (hd :: s').isPrefixOf (x.drop i ++ y) = false := by
  have hdrop := List.drop_eq_getElem_cons hi
  rw [hdrop, List.cons_append]
  have hne : x[i] ≠ hd := hx _ (List.getElem_mem hi)
  simp [List.isPrefixOf, hne, Ne.symm hne]

/-- `breakOn` passes over a block free of the separator's head character. -/
theorem breakOn_append_clean (hd : Char) (s' x y : List Char)
    (hx : ∀ c ∈ x, c ≠ hd) :
    breakOn (hd :: s') (x ++ y) =
      (breakOn (hd :: s') y).map (fun p => (x ++ p.1, p.2)) :=
  breakOn_append_no_early (hd :: s') x y
    (fun i hi => isPrefixOf_false_of_clean hd s' x y hx i hi)

/-- `in` is false on a block free of the separator's head character. -/
theorem pyin_false_of_clean (hd : Char) (s' x : List Char)
    (hx : ∀ c ∈ x, c ≠ hd) :
    pyin (hd :: s') x = false := by
  induction x with
  | nil => rfl
  | cons c cs ih =>
    unfold pyin
    have hc : c ≠ hd := hx c (by simp)
    rw [ih (fun c2 hc2 => hx c2 (List.mem_cons_of_mem _ hc2))]
    simp [List.isPrefixOf, Ne.symm hc]

/-- A backtick run that has already failed cannot succeed past a newline. -/
theorem fence_isPrefixOf_ext (y X : List Char)
    (h : fence.isPrefixOf y = false) :
    fence.isPrefixOf (y ++ '\n' :: X) = false := by
  have hnl : (bt == '\n') = false := rfl
  rcases y with _ | ⟨a, _ | ⟨b, _ | ⟨c, t⟩⟩⟩
  · rw [List.nil_append, fence_chars]
    simp [List.isPrefixOf, hnl]
  · rw [fence_chars] at h ⊢
    simp [List.isPrefixOf, hnl]
  · rw [fence_chars] at h ⊢
    simp [List.isPrefixOf, hnl]
  · rw [fence_chars] at h ⊢
    simpa [List.isPrefixOf] using h

/-- The json-tagged marker begins with the generic marker. -/
theorem fenceJson_isPrefixOf_imp_fence (s : List Char)
    (h : fenceJson.isPrefixOf s = true) : fence.isPrefixOf s = true := by
  rcases s with _ | ⟨a, _ | ⟨b, _ | ⟨c, t⟩⟩⟩ <;>
    simp [fenceJson_chars, fence_chars, List.isPrefixOf] at h ⊢
  tauto

/-- Containment of the json-tagged marker implies containment of the generic
marker. -/
theorem pyin_fence_of_fenceJson (t : List Char)
    (h : pyin fenceJson t = true) : pyin fence t = true := by
  induction t with
  | nil => simp [pyin, fenceJson] at h
  | cons c cs ih =>
    simp only [pyin, Bool.or_eq_true] at h ⊢
    rcases h with h | h
    · exact Or.inl (fenceJson_isPrefixOf_imp_fence _ h)
    · exact Or.inr (ih h)

/-- `in` steps over a position with no match. -/
theorem pyin_cons_of_no_match (needle : List Char) (c : Char) (cs : List Char)
    (h : needle.isPrefixOf (c :: cs) = false) :
    pyin needle (c :: cs) = pyin needle cs := by
  simp [pyin, h]

/-- A fence-free document followed by a newline and a closing fence contains
no json-tagged marker. -/
theorem pyin_fenceJson_tail (d : List Char) (hd : pyin fence d = false) :
    pyin fenceJson (d ++ '\n' :: fence) = false := by
  induction d with
  | nil => rfl
  | cons c d' ih =>
    simp only [pyin, Bool.or_eq_false_iff] at hd
    obtain ⟨h1, h2⟩ := hd
    have h3 : fence.isPrefixOf ((c :: d') ++ '\n' :: fence) = false :=
      fence_isPrefixOf_ext (c :: d') fence h1
    have h4 : fenceJson.isPrefixOf (c :: (d' ++ '\n' :: fence)) = false := by
      rw [← List.cons_append]
      cases hjp : fenceJson.isPrefixOf ((c :: d') ++ '\n' :: fence) with
      | false => rfl
      | true =>
        rw [fenceJson_isPrefixOf_imp_fence _ hjp] at h3
        simp at h3
    rw [List.cons_append, pyin_cons_of_no_match fenceJson c _ h4]
    exact ih h2

/-- A fence-free document followed by a newline contains no fence marker. -/
theorem pyin_fence_newline_tail (d : List Char) (hd : pyin fence d = false) :
    pyin fence (d ++ ['\n']) = false := by
  induction d with
  | nil => rfl
  | cons c d' ih =>
    simp only [pyin, Bool.or_eq_false_iff] at hd
    obtain ⟨h1, h2⟩ := hd
    have h3 : fence.isPrefixOf ((c :: d') ++ '\n' :: ([] : List Char)) = false :=
      fence_isPrefixOf_ext (c :: d') [] h1
    rw [List.cons_append, pyin_cons_of_no_match fence c _ (by
      rw [← List.cons_append]
      exact h3)]
    exact ih h2

/-- The first fence after a fence-free document sits exactly at its closing
marker. -/
theorem breakOn_fence_doc (d z : List Char) (hd : pyin fence d = false) :
    breakOn fence (d ++ '\n' :: (fence ++ z)) = some (d ++ ['\n'], z) := by
  induction d with
  | nil =>
    rw [List.nil_append]
    rw [breakOn_cons_no_match fence '\n' (fence ++ z) rfl]
    rw [fence_chars, breakOn_at_start bt [bt, bt] z]
    rfl
  | cons c d' ih =>
    simp only [pyin, Bool.or_eq_false_iff] at hd
    obtain ⟨h1, h2⟩ := hd
    rw [List.cons_append]
    rw [breakOn_cons_no_match fence c _ (by
      have h3 := fence_isPrefixOf_ext (c :: d') (fence ++ z) h1
      rw [List.cons_append] at h3
      exact h3)]
    rw [ih h2]
    rfl

/-- The text before the first occurrence of `sep` (the whole text when `sep`
does not occur): the `[0]` segment of Python's `split`. -/
def firstSeg (sep s : List Char) : List Char :=
  match breakOn sep s with
  | none => s
  | some (b, _) => b

/-- The head of the split worker, given any fuel. -/
theorem pysplitGo_getD_zero (sep : List Char) (f : Nat) (a : List Char)
    (hf : 1 ≤ f) : (pysplitGo sep f a).getD 0 [] = firstSeg sep a := by
  cases f with
  | zero => omega
  | succ g =>
    simp only [pysplitGo, firstSeg]
    cases breakOn sep a with
    | none => rfl
    | some p => cases p; rfl

/-- `split(sep)[0]` is the segment before the first occurrence. -/
theorem pysplit_idx_zero (sep s : List Char) :
    idx (pysplit sep s) 0 = firstSeg sep s := by
  unfold idx pysplit
  exact pysplitGo_getD_zero sep (s.length + 1) s (by omega)

/-- `split(sep)[1]` is the segment between the first occurrence and the next
one, when `sep` occurs at all. -/
theorem pysplit_idx_one (sep s b a : List Char)
    (hb : breakOn sep s = some (b, a)) :
    idx (pysplit sep s) 1 = firstSeg sep a := by
  have hs : s ≠ [] := by
    intro hcon
    rw [hcon] at hb
    exact absurd hb (by simp [breakOn])
  unfold idx pysplit
  simp only [pysplitGo, hb]
  have hlen : 1 ≤ s.length := List.length_pos.mpr hs
  cases hl : s.length with
  | zero => omega
  | succ n =>
    simpa using pysplitGo_getD_zero sep (n + 1) a (by omega)

/-- When `sep` does not occur, the text before the first occurrence is the
whole text. -/
theorem firstSeg_of_not_pyin (hd : Char) (s' t : List Char)
    (h : pyin (hd :: s') t = false) : firstSeg (hd :: s') t = t := by
  rw [pyin_eq_isSome] at h
  unfold firstSeg
  cases hb : breakOn (hd :: s') t with
  | none => rfl
  | some p =>
    rw [hb] at h
    simp at h

/-- `in` agrees with `breakOn` for any non-empty separator. -/
theorem pyin_eq_isSome' (sep t : List Char) (hsep : sep ≠ []) :
    pyin sep t = (breakOn sep t).isSome := by
  cases sep with
  | nil => exact absurd rfl hsep
  | cons hd s' => exact pyin_eq_isSome hd s' t

/-- `firstSeg` for any non-empty separator that does not occur. -/
theorem firstSeg_of_not_pyin' (sep t : List Char) (hsep : sep ≠ [])
    (h : pyin sep t = false) : firstSeg sep t = t := by
  cases sep with
  | nil => exact absurd rfl hsep
  | cons hd s' => exact firstSeg_of_not_pyin hd s' t h

/-- The generic fence at the start of the remainder. -/
theorem breakOn_fence_at_start (y : List Char) :
    breakOn fence (fence ++ y) = some ([], y) := by
  rw [fence_chars]
  exact breakOn_at_start bt [bt, bt] y

/-- The tagged fence at the start of the remainder. -/
theorem breakOn_fenceJson_at_start (y : List Char) :
    breakOn fenceJson (fenceJson ++ y) = some ([], y) := by
  rw [fenceJson_chars]
  exact breakOn_at_start bt [bt, bt, 'j', 's', 'o', 'n'] y

/-- `breakOn` with the generic fence skips a backtick-free block. -/
theorem breakOn_fence_clean (x y : List Char) (hx : ∀ c ∈ x, c ≠ bt) :
    breakOn fence (x ++ y) =
      (breakOn fence y).map (fun p => (x ++ p.1, p.2)) := by
  rw [fence_chars]
  exact breakOn_append_clean bt [bt, bt] x y hx

/-- `breakOn` with the tagged fence skips a backtick-free block. -/
theorem breakOn_fenceJson_clean (x y : List Char) (hx : ∀ c ∈ x, c ≠ bt) :
    breakOn fenceJson (x ++ y) =
      (breakOn fenceJson y).map (fun p => (x ++ p.1, p.2)) := by
  rw [fenceJson_chars]
  exact breakOn_append_clean bt [bt, bt, 'j', 's', 'o', 'n'] x y hx

/-- A backtick-free block contains no generic fence. -/
theorem pyin_fence_false_of_clean (x : List Char) (hx : ∀ c ∈ x, c ≠ bt) :
    pyin fence x = false := by
  rw [fence_chars]
  exact pyin_false_of_clean bt [bt, bt] x hx

/-- Selection from a json-tagged fenced document: the newline-padded
document between the markers. -/
theorem selectText_json_wrapped (d : List Char) (hd : pyin fence d = false) :
    selectText (fenceJson ++ '\n' :: (d ++ '\n' :: fence)) =
      '\n' :: (d ++ ['\n']) := by
  have hbr : breakOn fenceJson (fenceJson ++ '\n' :: (d ++ '\n' :: fence)) =
      some ([], '\n' :: (d ++ '\n' :: fence)) :=
    breakOn_fenceJson_at_start _
  have hpy : pyin fenceJson (fenceJson ++ '\n' :: (d ++ '\n' :: fence)) = true := by
    rw [pyin_eq_isSome' fenceJson _ (by rw [fenceJson_chars]; simp), hbr]
    rfl
  have hrest : pyin fenceJson ('\n' :: (d ++ '\n' :: fence)) = false := by
    rw [pyin_cons_of_no_match fenceJson '\n' _ rfl]
    exact pyin_fenceJson_tail d hd
  have hbf : breakOn fence ('\n' :: (d ++ '\n' :: fence)) =
      some ('\n' :: (d ++ ['\n']), []) := by
    rw [breakOn_cons_no_match fence '\n' _ rfl]
    rw [show d ++ '\n' :: fence = d ++ '\n' :: (fence ++ []) by simp]
    rw [breakOn_fence_doc d [] hd]
    rfl
  unfold selectText
  rw [hpy, if_pos rfl]
  rw [pysplit_idx_one fenceJson _ [] _ hbr]
  rw [firstSeg_of_not_pyin' fenceJson _ (by rw [fenceJson_chars]; simp) hrest]
  rw [pysplit_idx_zero fence _]
  unfold firstSeg
  rw [hbf]

/-- Selection from an untagged fenced document: the same newline-padded
document. -/
theorem selectText_plain_wrapped (d : List Char) (hd : pyin fence d = false) :
    selectText (fence ++ '\n' :: (d ++ '\n' :: fence)) =
      '\n' :: (d ++ ['\n']) := by
  have hnj : pyin fenceJson (fence ++ '\n' :: (d ++ '\n' :: fence)) = false := by
    rw [show fence ++ '\n' :: (d ++ '\n' :: fence) =
      bt :: bt :: bt :: ('\n' :: (d ++ '\n' :: fence)) from rfl]
    rw [pyin_cons_of_no_match fenceJson bt
      (bt :: bt :: '\n' :: (d ++ '\n' :: fence)) (by rfl)]
    rw [pyin_cons_of_no_match fenceJson bt
      (bt :: '\n' :: (d ++ '\n' :: fence)) (by rfl)]
    rw [pyin_cons_of_no_match fenceJson bt
      ('\n' :: (d ++ '\n' :: fence)) (by rfl)]
    rw [pyin_cons_of_no_match fenceJson '\n' (d ++ '\n' :: fence) (by rfl)]
    exact pyin_fenceJson_tail d hd
  have hbr : breakOn fence (fence ++ '\n' :: (d ++ '\n' :: fence)) =
      some ([], '\n' :: (d ++ '\n' :: fence)) :=
    breakOn_fence_at_start _
  have hpy : pyin fence (fence ++ '\n' :: (d ++ '\n' :: fence)) = true := by
    rw [pyin_eq_isSome' fence _ (by rw [fence_chars]; simp), hbr]
    rfl
  have hbf : breakOn fence ('\n' :: (d ++ '\n' :: fence)) =
      some ('\n' :: (d ++ ['\n']), []) := by
    rw [breakOn_cons_no_match fence '\n' _ rfl]
    rw [show d ++ '\n' :: fence = d ++ '\n' :: (fence ++ []) by simp]
    rw [breakOn_fence_doc d [] hd]
    rfl
  have hseg : pyin fence ('\n' :: (d ++ ['\n'])) = false := by
    rw [pyin_cons_of_no_match fence '\n' _ rfl]
    exact pyin_fence_newline_tail d hd
  unfold selectText
  rw [hnj]
  simp only [Bool.false_eq_true, if_false]
  rw [hpy, if_pos rfl]
  rw [pysplit_idx_one fence _ [] _ hbr]
  unfold firstSeg
  rw [hbf]
  rw [pysplit_idx_zero fence _]
  rw [firstSeg_of_not_pyin' fence _ (by rw [fence_chars]; simp) hseg]

/-- Selection from bare text without any fence marker: the text itself. -/
theorem selectText_raw (d : List Char) (hd : pyin fence d = false) :
    selectText d = d := by
  have hnj : pyin fenceJson d = false := by
    cases hj : pyin fenceJson d with
    | false => rfl
    | true =>
      rw [pyin_fence_of_fenceJson d hj] at hd
      simp at hd
  unfold selectText
  rw [hnj, hd]
  simp

/-- A fenced block of prose that is not valid JSON, preceding the tagged
block in the preference scenario. -/
def noisePre : List Char := "```\nnot json\n```\n".toList

/-- Selection prefers the json-tagged fence over an earlier generic fence. -/
theorem selectText_prefers_json (d : List Char) (hd : pyin fence d = false) :
    selectText (noisePre ++ (fenceJson ++ '\n' :: (d ++ '\n' :: fence))) =
      '\n' :: (d ++ ['\n']) := by
  have hidx : ∀ i, i < noisePre.length →
      fenceJson.isPrefixOf
        (noisePre.drop i ++ (fenceJson ++ '\n' :: (d ++ '\n' :: fence))) = false := by
    intro i hi
    have h17 : noisePre.length = 17 := rfl
    rw [h17] at hi
    interval_cases i <;> rfl
  have hbr : breakOn fenceJson (noisePre ++ (fenceJson ++ '\n' :: (d ++ '\n' :: fence))) =
      some (noisePre, '\n' :: (d ++ '\n' :: fence)) := by
    rw [breakOn_append_no_early fenceJson noisePre _ hidx]
    rw [breakOn_fenceJson_at_start _]
    simp
  have hpy : pyin fenceJson (noisePre ++ (fenceJson ++ '\n' :: (d ++ '\n' :: fence))) = true := by
    rw [pyin_eq_isSome' fenceJson _ (by rw [fenceJson_chars]; simp), hbr]
    rfl
  have hrest : pyin fenceJson ('\n' :: (d ++ '\n' :: fence)) = false := by
    rw [pyin_cons_of_no_match fenceJson '\n' _ rfl]
    exact pyin_fenceJson_tail d hd
  have hbf : breakOn fence ('\n' :: (d ++ '\n' :: fence)) =
      some ('\n' :: (d ++ ['\n']), []) := by
    rw [breakOn_cons_no_match fence '\n' _ rfl]
    rw [show d ++ '\n' :: fence = d ++ '\n' :: (fence ++ []) by simp]
    rw [breakOn_fence_doc d [] hd]
    rfl
  unfold selectText
  rw [hpy, if_pos rfl]
  rw [pysplit_idx_one fenceJson _ noisePre _ hbr]
  rw [firstSeg_of_not_pyin' fenceJson _ (by rw [fenceJson_chars]; simp) hrest]
  rw [pysplit_idx_zero fence _]
  unfold firstSeg
  rw [hbf]

/-! ### Python dictionary access, truthiness, and exceptions -/

/-- Exceptions that the embedded fragment of `execute_plan` can raise. -/
inductive PyErr where
  | keyError (k : String)
  | typeError (msg : String)
  | ioError (msg : String)

/-- Python's `str(e)` on the exceptions above (a `KeyError` renders as the
quoted key). -/
def pyStrErr : PyErr → String
  | .keyError k => (Char.ofNat 39).toString ++ k ++ (Char.ofNat 39).toString
  | .typeError m => m
  | .ioError m => m

/-- Lookup in an object's field list; the last binding of a key wins, matching
the dict built by `json.loads` from duplicate keys. -/
def jlookup (k : String) : List (String × Json) → Option Json
  | [] => none
  | (k', v) :: rest =>
    match jlookup k rest with
    | some r => some r
    | none => if k' = k then some v else none

/-- Python's `step[k]`: raises `KeyError` on a missing key and `TypeError`
when the subscripted value is not a dict. -/
def pyIndex (o : Json) (k : String) : Except PyErr Json :=
  match o with
  | .obj fields =>
    match jlookup k fields with
    | some v => .ok v
    | none => .error (.keyError k)
  | _ => .error (.typeError "value is not subscriptable by a string key")

/-- Python's `step.get(k, default)` on a dict. -/
def pyGetD (o : Json) (k : String) (d : Json) : Json :=
  match o with
  | .obj fields => (jlookup k fields).getD d
  | _ => d

/-- Python's `k in step` on a dict. -/
def hasKey (o : Json) (k : String) : Bool :=
  match o with
  | .obj fields => (jlookup k fields).isSome
  | _ => false

/-- Python truthiness of a JSON value. -/
def truthy : Json → Bool
  | .null => false
  | .bool b => b
  | .num n => n ≠ 0
  | .str s => !s.isEmpty
  | .arr l => !l.isEmpty
  | .obj l => !l.isEmpty

/-- Python's `s.strip()` (default whitespace stripping). -/
def pyStrip (l : List Char) : List Char :=
  ((l.dropWhile wsChar).reverse.dropWhile wsChar).reverse

/-! ### The plan executor (`execute_plan`, lines 97-133) -/

/-- Result of `subprocess.run(..., shell=True, text=True, capture_output=True)`. -/
structure CmdResult where
  returncode : Int
  stdout : String
  stderr : String

/-- Oracle for the machine `execute_plan` acts on: what each shell command
returns, and whether opening a path for writing fails (`some msg` is the
I/O error text). -/
structure Env where
  run : String → CmdResult
  writeErr : String → Option String

/-- Observable side effects of one execution, in order: a shell command was
run, captured standard output was shown to the operator, a file was written. -/
inductive Ev where
  | ranCmd (cmd : String)
  | shownOutput (out : String)
  | wroteFile (name content : String)

/-- Overwrite-or-create an entry of the modelled filesystem. -/
def fsSet : List (String × String) → String → String → List (String × String)
  | [], k, v => [(k, v)]
  | (k', v') :: rest, k, v =>
    if k' = k then (k, v) :: rest else (k', v') :: fsSet rest k v

/-- Content of a file of the modelled filesystem. -/
def fsGet : List (String × String) → String → Option String
  | [], _ => none
  | (k', v') :: rest, k => if k' = k then some v' else fsGet rest k

/-- Mutable state threaded through execution: the filesystem and the trace of
observable effects. -/
structure ExecSt where
  fs : List (String × String)
  trace : List Ev

/-- Body of the `try:` block of one step (lines 103-127).  The returned state
keeps whatever effects happened before an exception, as in Python.
`some (false, detail)` models the early `return False, ...`; `none` means the
loop continues with the next step. -/
def stepTry (env : Env) (step : Json) (st : ExecSt) :
    Except PyErr (Option (Bool × String)) × ExecSt :=
  if truthy (pyGetD step "is_command" (Json.bool false)) then
    match pyIndex step "command" with
    | .error e => (.error e, st)
    | .ok (Json.str c) =>
      let r := env.run c
      let st1 : ExecSt := { st with trace := st.trace ++ [.ranCmd c] }
      if r.returncode = 0 then
        if (pyStrip r.stdout.toList).isEmpty then (.ok none, st1)
        else (.ok none, { st1 with trace := st1.trace ++ [.shownOutput r.stdout] })
      else
        (.ok (some (false, "Command failed: " ++ r.stderr)), st1)
    | .ok _ => (.error (.typeError "subprocess argument must be a string"), st)
  else if hasKey step "code" then
    match pyGetD step "filename" (Json.str "output.py") with
    | Json.str f =>
      match env.writeErr f with
      | some msg => (.error (.ioError msg), st)
      | none =>
        let st1 : ExecSt := { st with fs := fsSet st.fs f "" }
        match pyIndex step "code" with
        | .ok (Json.str code) =>
          (.ok none,
            { fs := fsSet st1.fs f code, trace := st1.trace ++ [.wroteFile f code] })
        | .ok _ => (.error (.typeError "write argument must be a string"), st1)
        | .error e => (.error e, st1)
    | _ => (.error (.typeError "file path must be a string"), st)
  else (.ok none, st)

/-- One iteration of the `for` loop of `execute_plan`: the progress line
(line 100) subscripts `step["description"]` before the `try:` block, so its
exception propagates; everything inside the `try` is converted by the
`except` clause into `return False, str(e)`. -/
def runStep (env : Env) (step : Json) (st : ExecSt) :
    Except PyErr (Option (Bool × String) × ExecSt) :=
  match pyIndex step "description" with
  | .error e => .error e
  | .ok _ =>
    match stepTry env step st with
    | (.ok out, st') => .ok (out, st')
    | (.error e, st') => .ok (some (false, pyStrErr e), st')

/-- The `for` loop of `execute_plan` over the step list. -/
def execSteps (env : Env) : List Json → ExecSt → Except PyErr ((Bool × String) × ExecSt)
  | [], st => .ok ((true, "All steps completed successfully"), st)
  | step :: rest, st =>
    match runStep env step st with
    | .error e => .error e
    | .ok (some res, st') => .ok (res, st')
    | .ok (none, st') => execSteps env rest st'

/-- `execute_plan(plan)`: iterate over `plan["steps"]`. -/
def execute_plan (env : Env) (plan : Json) (st : ExecSt) :
    Except PyErr ((Bool × String) × ExecSt) :=
  match pyIndex plan "steps" with
  | .error e => .error e
  | .ok (Json.arr steps) => execSteps env steps st
  | .ok _ => .error (.typeError "steps must be a list of dicts")

/-! ### The session loop (`main`, lines 199-238) -/

/-- The subscripts `display_plan` performs for one step (line 90 and, for a
command step, line 93); nothing else in it can raise. -/
def displayStep (s : Json) : Except PyErr Unit :=
  match pyIndex s "description" with
  | .error e => .error e
  | .ok _ =>
    if truthy (pyGetD s "is_command" (Json.bool false)) then
      match pyIndex s "command" with
      | .error e => .error e
      | .ok _ => .ok ()
    else .ok ()

/-- Worker for `display_plan` over the step list. -/
def displaySteps : List Json → Except PyErr Unit
  | [] => .ok ()
  | s :: rest =>
    match displayStep s with
    | .error e => .error e
    | .ok _ => displaySteps rest

/-- `display_plan(plan)` (lines 85-95): subscripts `plan["plan_description"]`
and `plan["steps"]`, then presents each step; pure display otherwise. -/
def display_plan (plan : Json) : Except PyErr Unit :=
  match pyIndex plan "plan_description" with
  | .error e => .error e
  | .ok _ =>
    match pyIndex plan "steps" with
    | .error e => .error e
    | .ok (Json.arr steps) => displaySteps steps
    | .ok _ => .error (.typeError "steps must be a list of dicts")

/-- Oracle for one session's external interactions.  `planText n` is the raw
model response to the `n`-th `get_plan` call, `refineText n` the response to
the `n`-th `refine_plan` call; `approve` and `confirmSuccess` are the
operator's answers, indexed by loop iteration.  The feedback text typed by
the operator only feeds the next prompt and is absorbed by the oracle. -/
structure SessionIo where
  planText : Nat → List Char
  refineText : Nat → List Char
  approve : Nat → Bool
  confirmSuccess : Nat → Bool
  env : Env

/-- Observable session events, in order. -/
inductive SEv where
  | presented (p : Json)
  | execDone (ok : Bool) (msg : String)
  | refineReturned (p : Option Json)

/-- Terminal outcomes of the loop (`outOfFuel` when the fuel bound is hit). -/
inductive SOut where
  | done
  | abortedNoPlan
  | abortedRejected
  | abortedRefineFailed
  | crashed (e : PyErr)
  | outOfFuel

/-- The `while True:` loop of `main`.  `g` counts `get_plan` calls, `r`
counts `refine_plan` calls.  Note the faithful detail at the end of both
failure branches: the refined plan is bound, tested for truthiness, and then
the loop restarts at the top, where `plan = get_plan(model, task)` overwrites
it (line 202). -/
def sessionLoop (io : SessionIo) : Nat → Nat → Nat → ExecSt → List SEv →
    SOut × List SEv × ExecSt
  | 0, _, _, st, tr => (.outOfFuel, tr, st)
  | fuelLeft + 1, g, r, st, tr =>
    match extractPlan (io.planText g) with
    | none => (.abortedNoPlan, tr, st)
    | some plan =>
      if truthy plan = false then (.abortedNoPlan, tr, st)
      else
        match display_plan plan with
        | .error e => (.crashed e, tr, st)
        | .ok _ =>
          let tr := tr ++ [.presented plan]
          if io.approve g = false then (.abortedRejected, tr, st)
          else
            match execute_plan io.env plan st with
            | .error e => (.crashed e, tr, st)
            | .ok ((ok, msg), st') =>
              let tr := tr ++ [.execDone ok msg]
              if ok then
                if io.confirmSuccess g then (.done, tr, st')
                else
                  let rp := extractPlan (io.refineText r)
                  let tr := tr ++ [.refineReturned rp]
                  match rp with
                  | none => (.abortedRefineFailed, tr, st')
                  | some p =>
                    if truthy p = false then (.abortedRefineFailed, tr, st')
                    else sessionLoop io fuelLeft (g + 1) (r + 1) st' tr
              else
                let rp := extractPlan (io.refineText r)
                let tr := tr ++ [.refineReturned rp]
                match rp with
                | none => (.abortedRefineFailed, tr, st')
                | some p =>
                  if truthy p = false then (.abortedRefineFailed, tr, st')
                  else sessionLoop io fuelLeft (g + 1) (r + 1) st' tr

/-! ### Executor lemmas -/

/-- The `try:` body only ever early-returns a failure (`return False, ...`).
Success lets the `for` loop continue. -/
theorem stepTry_some_false (env : Env) (step : Json) (st st' : ExecSt)
    (r : Bool × String) (h : stepTry env step st = (.ok (some r), st')) :
    r.1 = false := by
  unfold stepTry at h
  split at h
  · split at h
    · simp_all
    · rename_i c heq
      by_cases hc : (env.run c).returncode = 0
      · rw [if_pos hc] at h
        split at h <;> simp_all
      · rw [if_neg hc] at h
        simp only [Prod.mk.injEq, Except.ok.injEq, Option.some.injEq] at h
        rw [← h.1]
    · simp_all
  · split at h
    · split at h
      · split at h
        · simp_all
        · split at h <;> simp_all
      · simp_all
    · simp_all

/-- `runStep` early-returns only failures. -/
theorem runStep_some_false (env : Env) (step : Json) (st st' : ExecSt)
    (r : Bool × String) (h : runStep env step st = .ok (some r, st')) :
    r.1 = false := by
  unfold runStep at h
  split at h
  · exact absurd h (by simp)
  · split at h
    · rename_i out st'' heq
      injection h with h1
      injection h1 with ho hs
      rw [ho] at heq
      exact stepTry_some_false env step st st'' r heq
    · rename_i e st'' heq
      injection h with h1
      injection h1 with ho hs
      injection ho with ho2
      rw [← ho2]

/-- Composition: a fully successful prefix run continues with the rest from
its final state. -/
theorem execSteps_append_ok (env : Env) (l₁ l₂ : List Json) (st st₁ : ExecSt)
    (m : String) (h : execSteps env l₁ st = .ok ((true, m), st₁)) :
    execSteps env (l₁ ++ l₂) st = execSteps env l₂ st₁ := by
  induction l₁ generalizing st with
  | nil =>
    simp only [execSteps] at h
    injection h with h1
    injection h1 with hr hs
    injection hr with hb hm
    rw [List.nil_append, hs]
  | cons s l₁ ih =>
    simp only [execSteps, List.cons_append] at h ⊢
    cases hr : runStep env s st with
    | error e => rw [hr] at h; exact absurd h (by simp)
    | ok p =>
      obtain ⟨o, st''⟩ := p
      rw [hr] at h
      cases o with
      | some res =>
        simp only at h
        injection h with h1
        injection h1 with hres hs
        have := runStep_some_false env s st st'' res hr
        rw [hres] at this
        simp at this
      | none => exact ih st'' h

/-- C1 under the hood: a failing step ends the run at that step, with the
state it produced, independently of every later step. -/
theorem execSteps_first_failure (env : Env) (pre : List Json) (s : Json)
    (post : List Json) (st st₁ st' : ExecSt) (m d : String)
    (hpre : execSteps env pre st = .ok ((true, m), st₁))
    (hfail : runStep env s st₁ = .ok (some (false, d), st')) :
    execSteps env (pre ++ s :: post) st = .ok ((false, d), st') ∧
    execSteps env (pre ++ s :: post) st = execSteps env (pre ++ [s]) st := by
  have h1 : execSteps env (pre ++ s :: post) st = execSteps env (s :: post) st₁ :=
    execSteps_append_ok env pre (s :: post) st st₁ m hpre
  have h2 : execSteps env (pre ++ [s]) st = execSteps env [s] st₁ :=
    execSteps_append_ok env pre [s] st st₁ m hpre
  have h3 : execSteps env (s :: post) st₁ = .ok ((false, d), st') := by
    simp only [execSteps, hfail]
  have h4 : execSteps env [s] st₁ = .ok ((false, d), st') := by
    simp only [execSteps, hfail]
  exact ⟨h1.trans h3, (h1.trans h3).trans (h2.trans h4).symm⟩

/-- C1: steps run strictly in list order; when step `k` fails, `execute_plan`
returns that failure at once, and no step after `k` runs or contributes any
side effect (the result and final state coincide with the run truncated just
after the failing step, for every continuation `post`). -/
theorem execute_plan_stops_at_first_failure (env : Env)
    (fields : List (String × Json)) (pre : List Json) (s : Json)
    (post : List Json) (st st₁ st' : ExecSt) (m d : String)
    (hsteps : jlookup "steps" fields = some (Json.arr (pre ++ s :: post)))
    (hpre : execSteps env pre st = .ok ((true, m), st₁))
    (hfail : runStep env s st₁ = .ok (some (false, d), st')) :
    execute_plan env (Json.obj fields) st = .ok ((false, d), st') ∧
    execute_plan env (Json.obj fields) st = execSteps env (pre ++ [s]) st := by
  have hx : execute_plan env (Json.obj fields) st =
      execSteps env (pre ++ s :: post) st := by
    simp only [execute_plan, pyIndex, hsteps]
  obtain ⟨hA, hB⟩ := execSteps_first_failure env pre s post st st₁ st' m d hpre hfail
  exact ⟨hx.trans hA, hx.trans hB⟩

/-- Shared concrete machine for witnesses: `"ok"` succeeds silently, any
other command exits 1 with `"boom"` on standard error; every path is
writable. -/
def envW : Env :=
  { run := fun c => if c = "ok" then ⟨0, "", ""⟩ else ⟨1, "", "boom"⟩
    writeErr := fun _ => none }

/-- A command step that succeeds under `envW`. -/
def stepOkCmd : Json :=
  Json.obj [("description", Json.str "first"), ("command", Json.str "ok"),
            ("is_command", Json.bool true)]

/-- A command step that fails under `envW`. -/
def stepBadCmd : Json :=
  Json.obj [("description", Json.str "second"), ("command", Json.str "bad"),
            ("is_command", Json.bool true)]

/-- A file-writing step. -/
def stepFile : Json :=
  Json.obj [("description", Json.str "third"), ("code", Json.str "print(1)"),
            ("filename", Json.str "f.py"), ("is_command", Json.bool false)]

/-- A three-step plan whose middle step fails under `envW`. -/
def planW : Json :=
  Json.obj [("plan_description", Json.str "w"),
            ("steps", Json.arr [stepOkCmd, stepBadCmd, stepFile])]

/-- Witness for C1: in `planW` the failing second step ends execution; the
file step after it never writes anything. -/
theorem execute_plan_stops_at_first_failure_witness :
    execute_plan envW planW ⟨[], []⟩ =
      .ok ((false, "Command failed: boom"), ⟨[], [.ranCmd "ok", .ranCmd "bad"]⟩) :=
  (execute_plan_stops_at_first_failure envW
    [("plan_description", Json.str "w"),
     ("steps", Json.arr [stepOkCmd, stepBadCmd, stepFile])]
    [stepOkCmd] stepBadCmd [stepFile]
    ⟨[], []⟩ ⟨[], [.ranCmd "ok"]⟩ ⟨[], [.ranCmd "ok", .ranCmd "bad"]⟩
    "All steps completed successfully" "Command failed: boom" rfl rfl rfl).1

/-- Writing twice to the same path keeps only the last content (the `open`
for writing truncates, then `write` fills the file). -/
theorem fsSet_fsSet (fs : List (String × String)) (k v w : String) :
    fsSet (fsSet fs k v) k w = fsSet fs k w := by
  induction fs with
  | nil => simp [fsSet]
  | cons p rest ih =>
    obtain ⟨k', v'⟩ := p
    by_cases hk : k' = k
    · simp [fsSet, hk]
    · simp [fsSet, hk, ih]

/-- Reading back a freshly written file yields the written content. -/
theorem fsGet_fsSet (fs : List (String × String)) (k v : String) :
    fsGet (fsSet fs k v) k = some v := by
  induction fs with
  | nil => simp [fsSet, fsGet]
  | cons p rest ih =>
    obtain ⟨k', v'⟩ := p
    by_cases hk : k' = k
    · simp [fsSet, fsGet, hk]
    · simp [fsSet, fsGet, hk, ih]

/-- C4 (amended): a command step with exit status zero succeeds and surfaces
the captured standard output whenever it is non-blank; a non-zero exit status
fails the step with detail `"Command failed: "` followed by the captured
standard error. -/
theorem runStep_commandstep (env : Env) (fields : List (String × Json))
    (st : ExecSt) (d : Json) (c : String)
    (hdesc : jlookup "description" fields = some d)
    (hcmd : truthy (pyGetD (Json.obj fields) "is_command" (Json.bool false)) = true)
    (hc : jlookup "command" fields = some (Json.str c)) :
    ((env.run c).returncode = 0 →
      runStep env (Json.obj fields) st =
        .ok (none, ⟨st.fs, st.trace ++ [Ev.ranCmd c] ++
          (if (pyStrip (env.run c).stdout.toList).isEmpty then []
           else [Ev.shownOutput (env.run c).stdout])⟩)) ∧
    ((env.run c).returncode ≠ 0 →
      runStep env (Json.obj fields) st =
        .ok (some (false, "Command failed: " ++ (env.run c).stderr),
          ⟨st.fs, st.trace ++ [Ev.ranCmd c]⟩)) := by
  constructor
  · intro h0
    have hstep : stepTry env (Json.obj fields) st =
        (.ok none, ⟨st.fs, st.trace ++ [Ev.ranCmd c] ++
          (if (pyStrip (env.run c).stdout.toList).isEmpty then []
           else [Ev.shownOutput (env.run c).stdout])⟩) := by
      by_cases hempty : (pyStrip (env.run c).stdout.toList).isEmpty
      · simp only [stepTry, pyIndex, hcmd, hc, if_pos h0, if_pos hempty, if_true]
        simp
      · simp only [stepTry, pyIndex, hcmd, hc, if_pos h0, if_neg hempty, if_true]
    simp only [runStep, pyIndex, hdesc, hstep]
  · intro h0
    have hstep : stepTry env (Json.obj fields) st =
        (.ok (some (false, "Command failed: " ++ (env.run c).stderr)),
          ⟨st.fs, st.trace ++ [Ev.ranCmd c]⟩) := by
      simp only [stepTry, pyIndex, hcmd, hc, if_neg h0, if_true]
    simp only [runStep, pyIndex, hdesc, hstep]

/-- Witness for C4 (amended): under `envW`, the command `"ok"` exits 0 and
the step continues; the command `"bad"` exits 1 and the step fails with the
prefixed captured standard error. -/
theorem runStep_commandstep_witness :
    runStep envW stepOkCmd ⟨[], []⟩ = .ok (none, ⟨[], [Ev.ranCmd "ok"]⟩) ∧
    runStep envW stepBadCmd ⟨[], []⟩ =
      .ok (some (false, "Command failed: boom"), ⟨[], [Ev.ranCmd "bad"]⟩) := by
  constructor
  · exact ((runStep_commandstep envW
      [("description", Json.str "first"), ("command", Json.str "ok"),
       ("is_command", Json.bool true)]
      ⟨[], []⟩ (Json.str "first") "ok" rfl rfl rfl).1 rfl).trans (by rfl)
  · exact ((runStep_commandstep envW
      [("description", Json.str "second"), ("command", Json.str "bad"),
       ("is_command", Json.bool true)]
      ⟨[], []⟩ (Json.str "second") "bad" rfl rfl rfl).2 (by decide)).trans (by rfl)

/-- Counterexample to C4 as stated: the failure detail is not the captured
standard error stream itself but that stream prefixed by `"Command failed: "`. -/
theorem runStep_command_detail_is_prefixed :
    runStep envW stepBadCmd ⟨[], []⟩ =
      .ok (some (false, "Command failed: boom"), ⟨[], [Ev.ranCmd "bad"]⟩) ∧
    (envW.run "bad").stderr = "boom" ∧
    "Command failed: boom" ≠ "boom" := by
  refine ⟨rfl, rfl, by decide⟩

/-- C5: a file step (not taken as a command) whose path is writable leaves
the file holding exactly the step's content, unconditionally overwriting any
previous entry of the filesystem. -/
theorem runStep_filestep_writes (env : Env) (fields : List (String × Json))
    (st : ExecSt) (d : Json) (f content : String)
    (hdesc : jlookup "description" fields = some d)
    (hcmd : truthy (pyGetD (Json.obj fields) "is_command" (Json.bool false)) = false)
    (hcode : jlookup "code" fields = some (Json.str content))
    (hfn : jlookup "filename" fields = some (Json.str f))
    (hw : env.writeErr f = none) :
    runStep env (Json.obj fields) st =
      .ok (none, ⟨fsSet st.fs f content, st.trace ++ [Ev.wroteFile f content]⟩) ∧
    fsGet (fsSet st.fs f content) f = some content := by
  constructor
  · have hhas : hasKey (Json.obj fields) "code" = true := by
      simp [hasKey, hcode]
    have hcmd' : truthy ((jlookup "is_command" fields).getD (Json.bool false)) = false := hcmd
    have hstep : stepTry env (Json.obj fields) st =
        (.ok none, ⟨fsSet st.fs f content, st.trace ++ [Ev.wroteFile f content]⟩) := by
      simp only [stepTry, pyIndex, pyGetD, hcmd', hcode, hfn, hhas, hw,
        Bool.false_eq_true, if_false, if_true, Option.getD_some]
      simp [fsSet_fsSet]
    simp only [runStep, pyIndex, hdesc, hstep]
  · exact fsGet_fsSet st.fs f content

/-- Witness for C5: `stepFile` overwrites a pre-existing `f.py`. -/
theorem runStep_filestep_writes_witness :
    runStep envW stepFile ⟨[("f.py", "old")], []⟩ =
      .ok (none, ⟨[("f.py", "print(1)")], [Ev.wroteFile "f.py" "print(1)"]⟩) ∧
    fsGet [("f.py", "print(1)")] "f.py" = some "print(1)" := by
  have h := runStep_filestep_writes envW
    [("description", Json.str "third"), ("code", Json.str "print(1)"),
     ("filename", Json.str "f.py"), ("is_command", Json.bool false)]
    ⟨[("f.py", "old")], []⟩ (Json.str "third") "f.py" "print(1)" rfl rfl rfl rfl rfl
  exact ⟨h.1.trans (by rfl), h.2.trans (by rfl)⟩

/-- C9: a step with a description, no (or false) `is_command`, and no `code`
key does nothing at all; a plan of such steps succeeds with the state
untouched. -/
theorem execSteps_skips_inert_steps (env : Env) (steps : List Json)
    (st : ExecSt)
    (h : ∀ s ∈ steps, ∃ fields, s = Json.obj fields ∧
        (jlookup "description" fields).isSome = true ∧
        (jlookup "is_command" fields = none ∨
          jlookup "is_command" fields = some (Json.bool false)) ∧
        jlookup "code" fields = none) :
    execSteps env steps st = .ok ((true, "All steps completed successfully"), st) := by
  induction steps generalizing st with
  | nil => rfl
  | cons s rest ih =>
    obtain ⟨fields, rfl, hdesc, hic, hcode⟩ := h s (List.mem_cons_self s rest)
    obtain ⟨dv, hdv⟩ := Option.isSome_iff_exists.mp hdesc
    have hcmd : truthy (pyGetD (Json.obj fields) "is_command" (Json.bool false)) = false := by
      rcases hic with hic | hic <;> simp [pyGetD, hic, truthy]
    have hhas : hasKey (Json.obj fields) "code" = false := by
      simp [hasKey, hcode]
    have hrun : runStep env (Json.obj fields) st = .ok (none, st) := by
      simp only [runStep, stepTry, pyIndex, hdv, hcmd, hhas, Bool.false_eq_true,
        if_false]
    simp only [execSteps, hrun]
    exact ih st (fun s hs => h s (List.mem_cons_of_mem _ hs))

/-- Witness for C9: two inert steps leave every part of the state unchanged
and the run succeeds. -/
theorem execSteps_skips_inert_steps_witness :
    execSteps envW
      [Json.obj [("description", Json.str "a")],
       Json.obj [("description", Json.str "b"), ("is_command", Json.bool false)]]
      ⟨[("f.py", "old")], []⟩ =
      .ok ((true, "All steps completed successfully"), ⟨[("f.py", "old")], []⟩) := by
  refine execSteps_skips_inert_steps envW _ _ ?_
  intro s hs
  simp only [List.mem_cons, List.not_mem_nil, or_false] at hs
  rcases hs with rfl | rfl
  · exact ⟨_, rfl, rfl, Or.inl rfl, rfl⟩
  · exact ⟨_, rfl, rfl, Or.inr rfl, rfl⟩

/-- C10 (amended): a step not taken as a command, carrying `code` but no
`filename`, writes the code to the default path `"output.py"` and the
(single-step) run reports success. -/
theorem runStep_default_filename (env : Env) (fields : List (String × Json))
    (st : ExecSt) (d : Json) (content : String)
    (hdesc : jlookup "description" fields = some d)
    (hcmd : truthy (pyGetD (Json.obj fields) "is_command" (Json.bool false)) = false)
    (hcode : jlookup "code" fields = some (Json.str content))
    (hfn : jlookup "filename" fields = none)
    (hw : env.writeErr "output.py" = none) :
    runStep env (Json.obj fields) st =
      .ok (none, ⟨fsSet st.fs "output.py" content,
        st.trace ++ [Ev.wroteFile "output.py" content]⟩) ∧
    execSteps env [Json.obj fields] st =
      .ok ((true, "All steps completed successfully"),
        ⟨fsSet st.fs "output.py" content,
          st.trace ++ [Ev.wroteFile "output.py" content]⟩) := by
  have hhas : hasKey (Json.obj fields) "code" = true := by
    simp [hasKey, hcode]
  have hcmd' : truthy ((jlookup "is_command" fields).getD (Json.bool false)) = false := hcmd
  have hstep : stepTry env (Json.obj fields) st =
      (.ok none, ⟨fsSet st.fs "output.py" content,
        st.trace ++ [Ev.wroteFile "output.py" content]⟩) := by
    simp only [stepTry, pyIndex, pyGetD, hcmd', hcode, hfn, hhas, hw,
      Bool.false_eq_true, if_false, if_true, Option.getD_none]
    simp [fsSet_fsSet]
  have h1 : runStep env (Json.obj fields) st =
      .ok (none, ⟨fsSet st.fs "output.py" content,
        st.trace ++ [Ev.wroteFile "output.py" content]⟩) := by
    simp only [runStep, pyIndex, hdesc, hstep]
  exact ⟨h1, by simp only [execSteps, h1]⟩

/-- Witness for C10 (amended): a description-plus-code step writes
`output.py`. -/
theorem runStep_default_filename_witness :
    runStep envW (Json.obj [("description", Json.str "w"), ("code", Json.str "pass")])
      ⟨[], []⟩ =
      .ok (none, ⟨[("output.py", "pass")], [Ev.wroteFile "output.py" "pass"]⟩) := by
  exact ((runStep_default_filename envW
    [("description", Json.str "w"), ("code", Json.str "pass")]
    ⟨[], []⟩ (Json.str "w") "pass" rfl rfl rfl rfl rfl).1).trans (by rfl)

/-- Counterexample to C10 as stated: a step carrying a `code` key but no
`filename` key that also has a truthy `is_command` runs its command instead;
nothing is ever written to `output.py`. -/
theorem runStep_code_key_not_always_written :
    runStep envW
      (Json.obj [("description", Json.str "mixed"), ("command", Json.str "ok"),
                 ("code", Json.str "y"), ("is_command", Json.bool true)])
      ⟨[], []⟩ = .ok (none, ⟨[], [Ev.ranCmd "ok"]⟩) ∧
    fsGet ([] : List (String × String)) "output.py" = none :=
  ⟨rfl, rfl⟩

/-- C7 (amended): once the step's `description` lookup in the progress
message has succeeded, no exception escapes `runStep`: the `try` body's
exceptions are converted to a `(False, str(e))` result in the state they
left behind. -/
theorem runStep_no_uncaught_with_description (env : Env)
    (fields : List (String × Json)) (st : ExecSt) (d : Json)
    (hdesc : jlookup "description" fields = some d) :
    ∃ out st', runStep env (Json.obj fields) st = .ok (out, st') ∧
      ∀ e st₂, stepTry env (Json.obj fields) st = (.error e, st₂) →
        out = some (false, pyStrErr e) ∧ st' = st₂ := by
  cases hst : stepTry env (Json.obj fields) st with
  | mk ex st₂ =>
    cases ex with
    | ok o =>
      refine ⟨o, st₂, ?_, ?_⟩
      · simp only [runStep, pyIndex, hdesc, hst]
      · intro e s h'
        injection h' with h1 h2
        simp at h1
    | error e =>
      refine ⟨some (false, pyStrErr e), st₂, ?_, ?_⟩
      · simp only [runStep, pyIndex, hdesc, hst]
      · intro e' s h'
        injection h' with h1 h2
        injection h1 with h1
        exact ⟨by rw [h1], by rw [h2]⟩

/-- Witness for C7 (amended): a command step lacking its `command` key still
produces a failure result (the stringified `KeyError`), not an exception. -/
theorem runStep_no_uncaught_with_description_witness :
    ∃ out st', runStep envW
        (Json.obj [("description", Json.str "d"), ("is_command", Json.bool true)])
        ⟨[], []⟩ = .ok (out, st') ∧
      ∀ e st₂, stepTry envW
          (Json.obj [("description", Json.str "d"), ("is_command", Json.bool true)])
          ⟨[], []⟩ = (.error e, st₂) →
        out = some (false, pyStrErr e) ∧ st' = st₂ :=
  runStep_no_uncaught_with_description envW
    [("description", Json.str "d"), ("is_command", Json.bool true)]
    ⟨[], []⟩ (Json.str "d") rfl

/-- Counterexample to C7 as stated: the step's `description` is subscripted
in the progress line before the `try:` block, so a step without it raises a
`KeyError` straight out of `execute_plan`. -/
theorem execute_plan_uncaught_keyerror :
    execute_plan envW
      (Json.obj [("plan_description", Json.str "p"), ("steps", Json.arr [Json.obj []])])
      ⟨[], []⟩ = .error (.keyError "description") := rfl

/-! ### The session loop and the fate of the refined plan (C2) -/

/-- The plan description a plan carries (used to tell plans apart). -/
def planDescString (j : Json) : String :=
  match pyGetD j "plan_description" Json.null with
  | .str s => s
  | _ => ""

/-- First plan of the C2 scenario: one failing command step. -/
def planP1 : Json :=
  Json.obj [("plan_description", Json.str "p1"),
    ("steps", Json.arr [Json.obj [("description", Json.str "s"),
      ("command", Json.str "bad"), ("is_command", Json.bool true)]])]

/-- The plan the refinement call returns in the C2 scenario. -/
def planA : Json :=
  Json.obj [("plan_description", Json.str "refined"), ("steps", Json.arr [])]

/-- The fresh plan the second `get_plan` call returns in the C2 scenario. -/
def planB : Json :=
  Json.obj [("plan_description", Json.str "fresh"), ("steps", Json.arr [])]

/-- Session oracle for the C2 scenario: the first `get_plan` response is
`planP1`, the second is `planB`; the refinement response is `planA`; the
operator approves everything. -/
def sessionIoW : SessionIo :=
  { planText := fun n =>
      if n = 0 then
        "\x7b\x22plan_description\x22: \x22p1\x22, \x22steps\x22: [\x7b\x22description\x22: \x22s\x22, \x22command\x22: \x22bad\x22, \x22is_command\x22: true\x7d]\x7d".toList
      else
        "\x7b\x22plan_description\x22: \x22fresh\x22, \x22steps\x22: []\x7d".toList
    refineText := fun _ =>
      "\x7b\x22plan_description\x22: \x22refined\x22, \x22steps\x22: []\x7d".toList
    approve := fun _ => true
    confirmSuccess := fun _ => true
    env := envW }

/-- C2 evidence: after the failed execution of `planP1`, the refinement call
returns `planA`, yet the very next plan presented for approval is the fresh
`get_plan` result `planB` — the refined plan is overwritten at the top of
the `while True:` loop (line 202) and never shown. -/
theorem sessionLoop_discards_refined_plan :
    sessionLoop sessionIoW 3 0 0 ⟨[], []⟩ [] =
      (.done,
       [.presented planP1, .execDone false "Command failed: boom",
        .refineReturned (some planA), .presented planB,
        .execDone true "All steps completed successfully"],
       ⟨[], [Ev.ranCmd "bad"]⟩) ∧
    planA ≠ planB :=
  ⟨rfl, fun h => absurd (congrArg planDescString h) (by decide)⟩

/-! ### Extractor validation behavior (C6) -/

/-- C6 (amended): the extractor performs no schema validation at all — any
JSON value recovered from the selected text is returned as the plan; and a
command step missing its required `command` field instead surfaces at
execution time as a caught per-step `KeyError` failure. -/
theorem extractPlan_performs_no_validation :
    (∀ t v, loads (selectText t) = some v → extractPlan t = some v) ∧
    (∀ (env : Env) (fields : List (String × Json)) (st : ExecSt) (d : Json),
      jlookup "description" fields = some d →
      truthy (pyGetD (Json.obj fields) "is_command" (Json.bool false)) = true →
      jlookup "command" fields = none →
      runStep env (Json.obj fields) st =
        .ok (some (false, pyStrErr (.keyError "command")), st)) := by
  constructor
  · intro t v h
    simpa [extractPlan] using h
  · intro env fields st d hdesc hcmd hnone
    have hstep : stepTry env (Json.obj fields) st =
        (.error (.keyError "command"), st) := by
      simp only [stepTry, pyIndex, hcmd, hnone, if_true]
    simp only [runStep, pyIndex, hdesc, hstep]

/-- A model response whose plan has a step with only a `description`: no
`is_command` discriminator and no required fields of either variant. -/
def responseInvalidStep : List Char :=
  "\x7b\x22plan_description\x22: \x22d\x22, \x22steps\x22: [\x7b\x22description\x22: \x22x\x22\x7d]\x7d".toList

/-- Counterexample to C6 as stated: the extractor happily returns the plan
containing the invalid step instead of failing. -/
theorem extractPlan_accepts_invalid_step :
    extractPlan responseInvalidStep =
      some (Json.obj [("plan_description", Json.str "d"),
        ("steps", Json.arr [Json.obj [("description", Json.str "x")]])]) ∧
    jlookup "is_command" [("description", Json.str "x")] = none ∧
    jlookup "command" [("description", Json.str "x")] = none ∧
    jlookup "filename" [("description", Json.str "x")] = none :=
  ⟨rfl, rfl, rfl, rfl⟩

/-! ### Fence-mode equivalence (C3) and first-block selection (C8) -/

/-- C3 (amended): for every JSON document free of the fence marker ```` ``` ````
that `loads` accepts, the extractor recovers the same value whether the
document sits inside a json-tagged fence, inside an untagged fence, or is
the bare response text; and a json-tagged fence is preferred even when a
generic fenced block precedes it. -/
theorem extractPlan_fence_modes (d : List Char) (v : Json)
    (hd : pyin fence d = false) (hv : loads d = some v) :
    extractPlan (fenceJson ++ '\n' :: (d ++ '\n' :: fence)) = some v ∧
    extractPlan (fence ++ '\n' :: (d ++ '\n' :: fence)) = some v ∧
    extractPlan d = some v ∧
    extractPlan (noisePre ++ (fenceJson ++ '\n' :: (d ++ '\n' :: fence))) = some v := by
  have hw := loads_newline_wrap d v hv
  refine ⟨?_, ?_, ?_, ?_⟩
  · unfold extractPlan
    rw [selectText_json_wrapped d hd]
    exact hw
  · unfold extractPlan
    rw [selectText_plain_wrapped d hd]
    exact hw
  · unfold extractPlan
    rw [selectText_raw d hd]
    exact hv
  · unfold extractPlan
    rw [selectText_prefers_json d hd]
    exact hw

/-- The document used by the C3 witness. -/
def docPlain : List Char :=
  "\x7b\x22plan_description\x22: \x22hi\x22, \x22steps\x22: []\x7d".toList

/-- The plan value `docPlain` denotes. -/
def docPlainVal : Json :=
  Json.obj [("plan_description", Json.str "hi"), ("steps", Json.arr [])]

/-- Witness for C3 (amended): a concrete plan document is recovered
identically in all four modes. -/
theorem extractPlan_fence_modes_witness :
    pyin fence docPlain = false ∧
    loads docPlain = some docPlainVal ∧
    extractPlan (fenceJson ++ '\n' :: (docPlain ++ '\n' :: fence)) = some docPlainVal ∧
    extractPlan docPlain = some docPlainVal :=
  ⟨by decide, rfl,
   (extractPlan_fence_modes docPlain docPlainVal (by decide) rfl).1,
   (extractPlan_fence_modes docPlain docPlainVal (by decide) rfl).2.2.1⟩

/-- A valid JSON plan document that mentions a fence marker inside one of
its strings. -/
def docWithTicks : List Char :=
  "\x7b\x22plan_description\x22: \x22use ``` fences\x22, \x22steps\x22: []\x7d".toList

/-- Counterexample to C3 as stated: `docWithTicks` is a valid JSON plan
document (`loads` accepts it), yet the extractor recovers no plan from it in
any of the three modes — the fence marker inside the string derails the
split-based selection. -/
theorem extractPlan_backtick_doc_fails :
    loads docWithTicks =
      some (Json.obj [("plan_description", Json.str "use ``` fences"),
        ("steps", Json.arr [])]) ∧
    extractPlan docWithTicks = none ∧
    extractPlan (fenceJson ++ '\n' :: (docWithTicks ++ '\n' :: fence)) = none ∧
    extractPlan (fence ++ '\n' :: (docWithTicks ++ '\n' :: fence)) = none :=
  ⟨rfl, rfl, rfl, rfl⟩

/-- C8: with several fenced blocks only the first matching one is selected.
Whatever follows the first block's closing fence — including further blocks
and any sentinel values inside them — cannot reach the extracted plan: the
result is exactly `loads` of the first block's content.  The two halves
cover an untagged first block (with arbitrary trailing text) and a
json-tagged first block. -/
theorem extractPlan_uses_first_block :
    (∀ pre b rest : List Char, (∀ c ∈ pre, c ≠ bt) → (∀ c ∈ b, c ≠ bt) →
      pyin fenceJson (pre ++ (fence ++ (b ++ (fence ++ rest)))) = false →
      extractPlan (pre ++ (fence ++ (b ++ (fence ++ rest)))) = loads b) ∧
    (∀ pre b rest : List Char, (∀ c ∈ pre, c ≠ bt) → (∀ c ∈ b, c ≠ bt) →
      pyin fenceJson (b ++ (fence ++ rest)) = false →
      extractPlan (pre ++ (fenceJson ++ (b ++ (fence ++ rest)))) = loads b) := by
  constructor
  · intro pre b rest hpre hb hnj
    have hbr : breakOn fence (pre ++ (fence ++ (b ++ (fence ++ rest)))) =
        some (pre, b ++ (fence ++ rest)) := by
      rw [breakOn_fence_clean pre _ hpre, breakOn_fence_at_start _]
      simp
    have hpy : pyin fence (pre ++ (fence ++ (b ++ (fence ++ rest)))) = true := by
      rw [pyin_eq_isSome' fence _ (by rw [fence_chars]; simp), hbr]
      rfl
    have hbf : breakOn fence (b ++ (fence ++ rest)) = some (b, rest) := by
      rw [breakOn_fence_clean b _ hb, breakOn_fence_at_start _]
      simp
    unfold extractPlan selectText
    rw [hnj]
    simp only [Bool.false_eq_true, if_false]
    rw [hpy, if_pos rfl]
    rw [pysplit_idx_one fence _ pre _ hbr]
    rw [show firstSeg fence (b ++ (fence ++ rest)) = b by
      unfold firstSeg; rw [hbf]]
    rw [pysplit_idx_zero fence b]
    rw [firstSeg_of_not_pyin' fence b (by rw [fence_chars]; simp)
      (pyin_fence_false_of_clean b hb)]
  · intro pre b rest hpre hb hnj
    have hbr : breakOn fenceJson (pre ++ (fenceJson ++ (b ++ (fence ++ rest)))) =
        some (pre, b ++ (fence ++ rest)) := by
      rw [breakOn_fenceJson_clean pre _ hpre, breakOn_fenceJson_at_start _]
      simp
    have hpy : pyin fenceJson (pre ++ (fenceJson ++ (b ++ (fence ++ rest)))) = true := by
      rw [pyin_eq_isSome' fenceJson _ (by rw [fenceJson_chars]; simp), hbr]
      rfl
    have hbf : breakOn fence (b ++ (fence ++ rest)) = some (b, rest) := by
      rw [breakOn_fence_clean b _ hb, breakOn_fence_at_start _]
      simp
    unfold extractPlan selectText
    rw [hpy, if_pos rfl]
    rw [pysplit_idx_one fenceJson _ pre _ hbr]
    rw [firstSeg_of_not_pyin' fenceJson _ (by rw [fenceJson_chars]; simp) hnj]
    rw [pysplit_idx_zero fence _]
    rw [show firstSeg fence (b ++ (fence ++ rest)) = b by
      unfold firstSeg; rw [hbf]]

/-- Witness for C8: a response with two untagged fenced blocks; the sentinel
plan in the second block never appears — the extracted plan is the first
block's. -/
theorem extractPlan_uses_first_block_witness :
    extractPlan ("see ".toList ++ (fence ++ (docPlain ++ (fence ++
        ("\nmore\n```\x7b\x22plan_description\x22: \x22SENTINEL\x22, \x22steps\x22: []\x7d```".toList)))))
      = loads docPlain ∧
    loads docPlain = some docPlainVal ∧
    extractPlan ("tagged: ".toList ++ (fenceJson ++ (docPlain ++ (fence ++ " trailing".toList))))
      = loads docPlain :=
  ⟨extractPlan_uses_first_block.1 "see ".toList docPlain
      ("\nmore\n```\x7b\x22plan_description\x22: \x22SENTINEL\x22, \x22steps\x22: []\x7d```".toList)
      (by decide) (by decide) (by decide),
   rfl,
   extractPlan_uses_first_block.2 "tagged: ".toList docPlain " trailing".toList
      (by decide) (by decide) (by decide)⟩

/-- Witness for C6 (amended): both halves at concrete inputs — the invalid
plan is returned unvalidated, and the missing `command` becomes a caught
step failure. -/
theorem extractPlan_performs_no_validation_witness :
    extractPlan responseInvalidStep =
      some (Json.obj [("plan_description", Json.str "d"),
        ("steps", Json.arr [Json.obj [("description", Json.str "x")]])]) ∧
    runStep envW
      (Json.obj [("description", Json.str "d"), ("is_command", Json.bool true)])
      ⟨[], []⟩ = .ok (some (false, pyStrErr (.keyError "command")), ⟨[], []⟩) :=
  ⟨extractPlan_performs_no_validation.1 responseInvalidStep _ rfl,
   extractPlan_performs_no_validation.2 envW
     [("description", Json.str "d"), ("is_command", Json.bool true)]
     ⟨[], []⟩ (Json.str "d") rfl rfl rfl⟩

end Agent
